import Mathlib

/-!
Verification of the Range / Traversal / Attribute-Mutation engine of a
headless DOM implementation.

The node graph is embedded as an arena of nodes addressed by list index
(the design notes of the system spec themselves suggest an arena of nodes
addressed by stable identifiers).  The algorithms of the Range Engine
(RangeAlgorithmImpl), the element algorithms (ElementAlgorithmImpl) and the
tree-walker stepping (TreeWalkerAlgorithmImpl) are transcribed from the
implementation sources.  The external collaborators the implementation
consumes but does not own - the tree index, the boundary point order and
the node mutation primitives - are not among the given sources and are
modelled from the specification (their doc comments say so explicitly).
-/

namespace LiveDom

/-- Node kinds: the closed tagged variant of the data model (element, text,
comment, document, document-fragment, document-type, attribute,
processing-instruction). -/
inductive NodeKind
  | element
  | text
  | comment
  | document
  | documentFragment
  | documentType
  | attributeNode
  | processingInstruction
deriving DecidableEq, Repr

/-- Guard.isCharacterDataNode: the text-like node kinds are Text,
ProcessingInstruction and Comment. -/
def NodeKind.isCharacterData : NodeKind → Bool
  | .text | .comment | .processingInstruction => true
  | _ => false

/-- A vertex of the node graph: kind tag, character data (meaningful for
text-like nodes), a non-owning parent back-reference and the ordered list
of children, all by arena id. -/
structure DNode where
  kind : NodeKind
  data : String
  parent : Option Nat
  children : List Nat
deriving DecidableEq, Repr

instance : Inhabited DNode := ⟨⟨.element, "", none, []⟩⟩

/-- The arena: node ids are indices into this list. -/
abbrev Forest := List DNode

/-- Node lookup (total, defaulting to an inert element for out-of-range ids). -/
def getN (F : Forest) (i : Nat) : DNode := F.getD i default

/-- Modelled from the spec: Tree Index length(node) - child count for
container nodes, character count for text-like nodes, 0 otherwise
(the TreeAlgorithm collaborator is not among the given sources). -/
def nodeLength (F : Forest) (i : Nat) : Nat :=
  let n := getN F i
  if n.kind.isCharacterData then n.data.length
  else if n.kind = .documentType then 0
  else n.children.length

/-- Modelled from the spec: Tree Index index(node) - zero-based position
among the parent's children (caller error when parentless; we return 0). -/
def idx (F : Forest) (i : Nat) : Nat :=
  match (getN F i).parent with
  | none => 0
  | some p => ((getN F p).children).indexOf i

/-- Child of a node at a given offset, if any. -/
def childAt (F : Forest) (i k : Nat) : Option Nat := (getN F i).children.get? k

def firstChild (F : Forest) (i : Nat) : Option Nat := (getN F i).children.head?

def lastChild (F : Forest) (i : Nat) : Option Nat := (getN F i).children.getLast?

def nextSibling (F : Forest) (i : Nat) : Option Nat :=
  match (getN F i).parent with
  | none => none
  | some p => (getN F p).children.get? (idx F i + 1)

def prevSibling (F : Forest) (i : Nat) : Option Nat :=
  match (getN F i).parent with
  | none => none
  | some p =>
    if idx F i = 0 then none else (getN F p).children.get? (idx F i - 1)

/-- The parent chain from a node hits a parentless node within the given
number of steps (the acyclicity witness every fuel-bounded walk rests on). -/
def reachesRoot (F : Forest) : Nat → Nat → Bool
  | 0, i => ((getN F i).parent).isNone
  | fuel + 1, i =>
    match (getN F i).parent with
    | none => true
    | some p => reachesRoot F fuel p

/-- Modelled from the spec: Tree Index root(node) - walk parent links to the
topmost ancestor (fuel-bounded walk; the arena size bounds the depth of any
well-formed forest). -/
def rootAux (F : Forest) : Nat → Nat → Nat
  | 0, i => i
  | fuel + 1, i =>
    match (getN F i).parent with
    | none => i
    | some p => rootAux F fuel p

def rootNode (F : Forest) (i : Nat) : Nat := rootAux F F.length i

def isAncestorOfAux (F : Forest) (a : Nat) : Nat → Nat → Bool
  | 0, _ => false
  | fuel + 1, d =>
    match (getN F d).parent with
    | none => false
    | some p => p == a || isAncestorOfAux F a fuel p

/-- Modelled from the spec: Tree Index ancestor test.  Following every call
site of the implementation, isAncestorOf F d a incl holds when a is an
ancestor of d (optionally counting d = a). -/
def isAncestorOf (F : Forest) (d a : Nat) (incl : Bool) : Bool :=
  (incl && d == a) || isAncestorOfAux F a F.length d

/-- The path of a node: the list of sibling indices from the root down to
the node (empty for a root), fuel-bounded. -/
def pathAux (F : Forest) : Nat → Nat → List Nat
  | 0, _ => []
  | fuel + 1, i =>
    match (getN F i).parent with
    | none => []
    | some p => pathAux F fuel p ++ [idx F i]

def nodePath (F : Forest) (i : Nat) : List Nat := pathAux F F.length i

/-- The tree-order relation of one boundary point to another. -/
inductive BoundaryPosition
  | Before
  | Equal
  | After
deriving DecidableEq, Repr

/-- Lexicographic comparison of index paths; a strict prefix comes first. -/
def lexCompare : List Nat → List Nat → BoundaryPosition
  | [], [] => .Equal
  | [], _ :: _ => .Before
  | _ :: _, [] => .After
  | a :: as, b :: bs =>
    if a < b then .Before else if b < a then .After else lexCompare as bs

/-- A boundary point: a (node, offset) pair. -/
abbrev BoundaryPoint := Nat × Nat

/-- Modelled from the spec: the Boundary Point Model position(A, B)
(the BoundaryPointAlgorithm collaborator is not among the given sources).
Within one tree the three spec rules - same-node offset comparison, the
ancestor rule (ancestor point Before exactly when its offset is at most the
index of its child on the descendant's path) and the sibling-index rule at
the nearest common ancestor - are exactly lexicographic comparison of the
two index paths each extended with its offset. -/
def position (F : Forest) (A B : BoundaryPoint) : BoundaryPosition :=
  lexCompare (nodePath F A.1 ++ [A.2]) (nodePath F B.1 ++ [B.2])

/-- The DOM error taxonomy used by the engine. -/
inductive DOMErr
  | invalidNodeType
  | indexSize
  | hierarchyRequest
  | inUseAttribute
  | syntaxErr
  | notFound
  | notSupported
  | internalErr
deriving DecidableEq, Repr

/-- A live range: a start and an end boundary point. -/
structure LRange where
  startNode : Nat
  startOffset : Nat
  endNode : Nat
  endOffset : Nat
deriving DecidableEq, Repr

def LRange.startBp (r : LRange) : BoundaryPoint := (r.startNode, r.startOffset)

def LRange.endBp (r : LRange) : BoundaryPoint := (r.endNode, r.endOffset)

/-- RangeAlgorithmImpl.collapsed: start node is end node and start offset is
end offset. -/
def collapsedR (r : LRange) : Bool :=
  r.startNode == r.endNode && r.startOffset == r.endOffset

/-- RangeAlgorithmImpl.root: the root of the start node. -/
def rootR (F : Forest) (r : LRange) : Nat := rootNode F r.startNode

/-- RangeAlgorithmImpl.isContained, transcribed. -/
def isContained (F : Forest) (n : Nat) (r : LRange) : Bool :=
  rootNode F n == rootR F r
    && position F (n, 0) r.startBp == .After
    && position F (n, nodeLength F n) r.endBp == .Before

/-- RangeAlgorithmImpl.isPartiallyContained, transcribed (inclusive ancestor
of exactly one of the two boundary nodes). -/
def isPartiallyContained (F : Forest) (n : Nat) (r : LRange) : Bool :=
  let startCheck := isAncestorOf F r.startNode n true
  let endCheck := isAncestorOf F r.endNode n true
  (startCheck && !endCheck) || (!startCheck && endCheck)

/-- RangeAlgorithmImpl.setTheStart, transcribed statement by statement.  The
result carries the (possibly thrown) error together with the range state
after the call, so partial effects of a throwing call are observable.  The
doctype guard of the implementation is the Guard helper applied to the
node's kind tag; the Guard module is not among the given sources and is
modelled from the spec as the document-type kind test. -/
def setTheStart (F : Forest) (r : LRange) (n k : Nat) : Option DOMErr × LRange :=
  if (getN F n).kind = .documentType then (some .invalidNodeType, r)
  else if k > nodeLength F n then (some .indexSize, r)
  else
    let r1 :=
      if position F (n, k) r.endBp = .After ∨ rootR F r ≠ rootNode F n then
        { r with endNode := n, endOffset := k }
      else r
    (none, { r1 with startNode := n, startOffset := k })

/-- RangeAlgorithmImpl.setTheEnd, transcribed statement by statement (same
conventions as setTheStart). -/
def setTheEnd (F : Forest) (r : LRange) (n k : Nat) : Option DOMErr × LRange :=
  if (getN F n).kind = .documentType then (some .invalidNodeType, r)
  else if k > nodeLength F n then (some .indexSize, r)
  else
    let r1 :=
      if position F (n, k) r.startBp = .Before ∨ rootR F r ≠ rootNode F n then
        { r with startNode := n, startOffset := k }
      else r
    (none, { r1 with endNode := n, endOffset := k })

/-- RangeAlgorithmImpl.select, transcribed: requires a parent, then spans the
node as a single child of that parent. -/
def select (F : Forest) (n : Nat) (r : LRange) : Option DOMErr × LRange :=
  match (getN F n).parent with
  | none => (some .invalidNodeType, r)
  | some parent =>
    let i := idx F n
    (none, ⟨parent, i, parent, i + 1⟩)

/-! Node mutation primitives.  These are the external collaborator of the
Range Engine; they are not among the given sources and are modelled from
the specification.  The live-range re-clamping the primitives trigger on a
document's registered ranges is the collaborator's own unshown logic with
no stated formulas; the claims below are therefore stated on the range the
transcribed algorithms manipulate directly. -/

/-- Allocate a fresh node at the end of the arena. -/
def fresh (F : Forest) (n : DNode) : Forest × Nat := (F ++ [n], F.length)

def setNode (F : Forest) (i : Nat) (n : DNode) : Forest := F.set i n

def setData (F : Forest) (i : Nat) (s : String) : Forest :=
  setNode F i { getN F i with data := s }

def setParent (F : Forest) (i : Nat) (p : Option Nat) : Forest :=
  setNode F i { getN F i with parent := p }

def setChildren (F : Forest) (i : Nat) (cs : List Nat) : Forest :=
  setNode F i { getN F i with children := cs }

/-- Modelled from the spec: substringCharacterData(node, offset, count). -/
def substringData (F : Forest) (i off count : Nat) : String :=
  String.mk (((getN F i).data.toList.drop off).take count)

/-- Modelled from the spec: replaceCharacterData(node, offset, count, new
data) - splices the new data over count units starting at offset. -/
def replaceData (F : Forest) (i off count : Nat) (s : String) : Forest :=
  let cs := (getN F i).data.toList
  setData F i (String.mk (cs.take off ++ s.toList ++ cs.drop (off + count)))

/-- Modelled from the spec: cloneNode(node) -> detached clone.  The clone
copies the node's kind and character data and starts detached and childless;
the transcribed range algorithms populate clones recursively, per their own
step comments. -/
def cloneNode (F : Forest) (i : Nat) : Forest × Nat :=
  fresh F { kind := (getN F i).kind, data := (getN F i).data,
            parent := none, children := [] }

/-- Modelled from the spec: remove(node, parent) - detach node from parent. -/
def removeFromParent (F : Forest) (n p : Nat) : Forest :=
  setParent (setChildren F p ((getN F p).children.erase n)) n none

/-- Detach a node from its parent, if it has one. -/
def detach (F : Forest) (n : Nat) : Forest :=
  match (getN F n).parent with
  | some q => removeFromParent F n q
  | none => F

/-- Insert the nodes xs into the child list l before the reference child
(append when the reference is absent). -/
def insertBeforeL (l : List Nat) (ref : Option Nat) (xs : List Nat) : List Nat :=
  match ref with
  | none => l ++ xs
  | some c => l.take (l.indexOf c) ++ xs ++ l.drop (l.indexOf c)

/-- Modelled from the spec: the insertion substep of preInsert - a document
fragment contributes its children (which are moved out of it), any other
node is first detached and then itself inserted before the reference
child. -/
def insertIntoParent (F : Forest) (n p : Nat) (ref : Option Nat) : Forest :=
  if (getN F n).kind = .documentFragment then
    let cs := (getN F n).children
    let F1 := setChildren F n []
    let F2 := cs.foldl (fun acc c => setParent acc c (some p)) F1
    setChildren F2 p (insertBeforeL ((getN F2 p).children) ref cs)
  else
    let F1 := setParent (detach F n) n (some p)
    setChildren F1 p (insertBeforeL ((getN F1 p).children) ref [n])

/-- The node kinds that may appear as a child. -/
def insertableKind : NodeKind → Bool
  | .documentFragment | .documentType | .element => true
  | k => k.isCharacterData

/-- Modelled from the spec: ensurePreInsertionValidity(node, parent, ref)
per standard pre-insertion rules - parent must be a document, document
fragment or element; node must not be a host-including inclusive ancestor
of parent; a non-null reference child must have parent as its parent; node
must be of a kind insertable as a child; a text node cannot go into a
document and a doctype only into a document.  (The finer document-children
arity rules bear on no claim and are not modelled.) -/
def ensurePreInsertionValidity (F : Forest) (n p : Nat) (ref : Option Nat) :
    Option DOMErr :=
  if ¬ ((getN F p).kind = .document ∨ (getN F p).kind = .documentFragment ∨
        (getN F p).kind = .element) then
    some .hierarchyRequest
  else if isAncestorOf F p n true then
    some .hierarchyRequest
  else if ref.any (fun c => (getN F c).parent ≠ some p) then
    some .notFound
  else if ¬ insertableKind (getN F n).kind then
    some .hierarchyRequest
  else if (getN F n).kind = .text ∧ (getN F p).kind = .document then
    some .hierarchyRequest
  else if (getN F n).kind = .documentType ∧ (getN F p).kind ≠ .document then
    some .hierarchyRequest
  else
    none

/-- Modelled from the spec: preInsert(node, parent, ref) - validate, step the
reference past node itself, insert; returns the inserted node. -/
def preInsert (F : Forest) (n p : Nat) (ref : Option Nat) :
    Except DOMErr (Forest × Nat) :=
  match ensurePreInsertionValidity F n p ref with
  | some e => .error e
  | none =>
    let ref2 := if ref = some n then nextSibling F n else ref
    .ok (insertIntoParent F n p ref2, n)

/-- Modelled from the spec: splitText(node, offset) -> the new node holding
the data past the offset, inserted right after the original when the
original has a parent. -/
def splitText (F : Forest) (t off : Nat) : Except DOMErr (Forest × Nat) :=
  let len := nodeLength F t
  if off > len then .error .indexSize
  else
    let count := len - off
    let newData := substringData F t off count
    let (F1, s) := fresh F { kind := (getN F t).kind, data := newData,
                             parent := none, children := [] }
    match (getN F1 t).parent with
    | some p =>
      let F2 := setChildren (setParent F1 s (some p)) p
        (insertBeforeL ((getN F1 p).children) (nextSibling F1 t) [s])
      .ok (replaceData F2 t off count "", s)
    | none =>
      .ok (replaceData F1 t off count "", s)

/-- The append calls of the transcribed assembly code (ParentNode.append and
Node.appendChild): pre-insertion of the argument at the end of the parent's
child list, going through the external collaborator's standard pre-insertion
validity check (spec section 6) - in particular a character-data parent fails
with HierarchyRequestError; a document fragment argument contributes its
children. -/
def appendChildA (F : Forest) (p n : Nat) : Except DOMErr Forest :=
  (preInsert F n p none).map (fun x => x.1)

/-- The common-ancestor walk of extract and cloneTheContents: climb from the
start node until the current node is an inclusive ancestor of the end node
(the implementation throws when it runs out of parents). -/
def commonAncestorWalk (F : Forest) (oen : Nat) : Nat → Nat → Except DOMErr Nat
  | 0, _ => .error .internalErr
  | fuel + 1, ca =>
    if isAncestorOf F oen ca true then .ok ca
    else
      match (getN F ca).parent with
      | none => .error .internalErr
      | some p => commonAncestorWalk F oen fuel p

/-- The backward scan of extract and cloneTheContents for the last partially
contained child, transcribed with its loop bound: the index runs from
children.length - 1 down while it stays strictly positive, so the child at
index 0 is never examined. -/
def scanBackPos (F : Forest) (r : LRange) (kids : List Nat) : Nat → Option Nat
  | 0 => none
  | i + 1 =>
    match kids.get? (i + 1) with
    | none => scanBackPos F r kids i
    | some c =>
      if isPartiallyContained F c r then some c else scanBackPos F r kids i

/-- The contained-children collection of extract and cloneTheContents: all
children contained in the range, in order, rejecting a doctype member. -/
def collectContained (F : Forest) (r : LRange) :
    List Nat → Except DOMErr (List Nat)
  | [] => .ok []
  | c :: rest =>
    if isContained F c r then
      if (getN F c).kind = .documentType then .error .hierarchyRequest
      else (collectContained F r rest).map (fun l => c :: l)
    else collectContained F r rest

/-- The reference-node walk of extract steps 14.1-14.3: climb from the start
node while the parent exists and is not an ancestor of the end node (the
ancestor test here is non-inclusive, as in the call), then answer step 14.3's
pair: the reference node's parent and one plus the reference node's index.
When the loop stops at a parentless reference node the source stores the null
parent into the range (the cast makes this silent), so the walk answers none
for the node; the fuel error is unreachable for well-formed chains. -/
def refNodeWalk (F : Forest) (oen : Nat) :
    Nat → Nat → Except DOMErr (Option Nat × Nat)
  | 0, _ => .error .internalErr
  | fuel + 1, ref =>
    match (getN F ref).parent with
    | none => .ok (none, 1 + idx F ref)
    | some p =>
      if ¬ isAncestorOf F oen p false then refNodeWalk F oen fuel p
      else .ok (some p, 1 + idx F ref)

/-- RangeAlgorithmImpl.extract, transcribed step by step, fuel-bounded on the
recursion into subranges.  Every quirk of the source is preserved: the
backward scan for the last partially contained child that skips index 0,
and step 16 cloning the original start node (not the first partially
contained child).  Returns the final forest, the fragment's id and the
range state after the call; when the reference-node walk of step 14 stops at
a parentless node the source stores the null parent silently, represented
here by the out-of-arena id F.length of the returned forest (no transcribed
algorithm reads a collapse node back). -/
def extract : Nat → Forest → LRange → Except DOMErr (Forest × Nat × LRange)
  | 0, _, _ => .error .internalErr
  | fuel + 1, F, r =>
    let (F1, fragment) := fresh F ⟨.documentFragment, "", none, []⟩
    if collapsedR r then .ok (F1, fragment, r)
    else
    let osn := r.startNode
    let oso := r.startOffset
    let oen := r.endNode
    let oeo := r.endOffset
    if osn = oen ∧ (getN F1 osn).kind.isCharacterData = true then do
      let (F2, clone) := cloneNode F1 osn
      let F3 := setData F2 clone (substringData F2 osn oso (oeo - oso))
      let F4 ← appendChildA F3 fragment clone
      let F5 := replaceData F4 osn oso (oeo - oso) ""
      .ok (F5, fragment, r)
    else do
    let ca ← commonAncestorWalk F1 oen (F1.length + 1) osn
    let fpc : Option Nat :=
      if ¬ isAncestorOf F1 oen osn true then
        ((getN F1 ca).children).find? (fun c => isPartiallyContained F1 c r)
      else none
    let lpc : Option Nat :=
      if ¬ isAncestorOf F1 osn oen true then
        scanBackPos F1 r ((getN F1 ca).children) ((getN F1 ca).children.length - 1)
      else none
    let contained ← collectContained F1 r ((getN F1 ca).children)
    let (newNode, newOffset) ←
      if isAncestorOf F1 oen osn true then
        Except.ok (some osn, oso)
      else
        refNodeWalk F1 oen (F1.length + 1) osn
    let F2 ←
      match fpc with
      | some c =>
        if (getN F1 c).kind.isCharacterData then do
          let (Fa, clone) := cloneNode F1 osn
          let Fb := setData Fa clone
            (substringData Fa osn oso (nodeLength Fa osn - oso))
          let Fc ← appendChildA Fb fragment clone
          pure (replaceData Fc osn oso (nodeLength Fc osn - oso) "")
        else do
          let (Fa, clone) := cloneNode F1 osn
          let Fb ← appendChildA Fa fragment clone
          let subrange : LRange := ⟨osn, oso, c, nodeLength Fb c⟩
          let (Fc, subfragment, _) ← extract fuel Fb subrange
          appendChildA Fc clone subfragment
      | none => Except.ok F1
    let F3 ← contained.foldlM (fun acc c => appendChildA acc fragment c) F2
    let F4 ←
      match lpc with
      | some c =>
        if (getN F3 c).kind.isCharacterData then do
          let (Fa, clone) := cloneNode F3 oen
          let Fb := setData Fa clone (substringData Fa oen 0 oeo)
          let Fc ← appendChildA Fb fragment clone
          pure (replaceData Fc oen 0 oeo "")
        else do
          let (Fa, clone) := cloneNode F3 c
          let Fb ← appendChildA Fa fragment clone
          let subrange : LRange := ⟨c, 0, oen, oeo⟩
          let (Fc, subfragment, _) ← extract fuel Fb subrange
          appendChildA Fc clone subfragment
      | none => Except.ok F3
    let nn := newNode.getD F4.length
    return (F4, fragment, ⟨nn, newOffset, nn, newOffset⟩)

/-- RangeAlgorithmImpl.cloneTheContents, transcribed step by step.  The
quirks of the source are preserved: the same-node character-data branch
does not return early (it falls through to the boundary-children analysis,
which then finds nothing), the backward scan skips index 0, step 14 clones
the original start node, and step 17 calls extract on the subrange for the
last partially contained child instead of cloning its contents.  The input
range is returned unchanged. -/
def cloneTheContents : Nat → Forest → LRange →
    Except DOMErr (Forest × Nat × LRange)
  | 0, _, _ => .error .internalErr
  | fuel + 1, F, r => do
  let (F1, fragment) := fresh F ⟨.documentFragment, "", none, []⟩
  if collapsedR r then return (F1, fragment, r)
  let osn := r.startNode
  let oso := r.startOffset
  let oen := r.endNode
  let oeo := r.endOffset
  let F1 ←
    if osn = oen ∧ (getN F1 osn).kind.isCharacterData then do
      let (F2, clone) := cloneNode F1 osn
      let F3 := setData F2 clone (substringData F2 osn oso (oeo - oso))
      appendChildA F3 fragment clone
    else
      Except.ok F1
  let ca ← commonAncestorWalk F1 oen (F1.length + 1) osn
  let fpc : Option Nat :=
    if ¬ isAncestorOf F1 oen osn true then
      ((getN F1 ca).children).find? (fun c => isPartiallyContained F1 c r)
    else none
  let lpc : Option Nat :=
    if ¬ isAncestorOf F1 osn oen true then
      scanBackPos F1 r ((getN F1 ca).children) ((getN F1 ca).children.length - 1)
    else none
  let contained ← collectContained F1 r ((getN F1 ca).children)
  let F2 ←
    match fpc with
    | some c =>
      if (getN F1 c).kind.isCharacterData then do
        let (Fa, clone) := cloneNode F1 osn
        let Fb := setData Fa clone
          (substringData Fa osn oso (nodeLength Fa osn - oso))
        appendChildA Fb fragment clone
      else do
        let (Fa, clone) := cloneNode F1 osn
        let Fb ← appendChildA Fa fragment clone
        let subrange : LRange := ⟨osn, oso, c, nodeLength Fb c⟩
        let (Fc, subfragment, _) ← cloneTheContents fuel Fb subrange
        appendChildA Fc clone subfragment
    | none => Except.ok F1
  let F3 ← contained.foldlM
    (fun acc c =>
      let (Fa, cl) := cloneNode acc c
      appendChildA Fa fragment cl) F2
  let F4 ←
    match lpc with
    | some c =>
      if (getN F3 c).kind.isCharacterData then do
        let (Fa, clone) := cloneNode F3 oen
        let Fb := setData Fa clone (substringData Fa oen 0 oeo)
        appendChildA Fb fragment clone
      else do
        let (Fa, clone) := cloneNode F3 c
        let Fb ← appendChildA Fa fragment clone
        let subrange : LRange := ⟨c, 0, oen, oeo⟩
        let (Fc, subfragment, _) ← extract fuel Fb subrange
        appendChildA Fc clone subfragment
    | none => Except.ok F3
  return (F4, fragment, r)

/-- RangeAlgorithmImpl.insert, transcribed step by step.  The step numbers in
the comments of the source are followed exactly; the split, removal and
pre-insertion are the spec-modelled primitives above. -/
def insertR (F : Forest) (node : Nat) (r : LRange) :
    Except DOMErr (Forest × LRange) :=
  let sk := (getN F r.startNode).kind
  if sk = .processingInstruction ∨ sk = .comment ∨
      (sk = .text ∧ (getN F r.startNode).parent = none) ∨ r.startNode = node then
    .error .hierarchyRequest
  else do
  let ref0 : Option Nat :=
    if sk = .text then some r.startNode
    else childAt F r.startNode r.startOffset
  let parent ←
    match ref0 with
    | none => Except.ok r.startNode
    | some c =>
      match (getN F c).parent with
      | none => Except.error .internalErr
      | some p => Except.ok p
  match ensurePreInsertionValidity F node parent ref0 with
  | some e => throw e
  | none => pure ()
  let (F1, ref1) ←
    if sk = .text then
      (splitText F r.startNode r.startOffset).map (fun fs => (fs.1, some fs.2))
    else
      Except.ok (F, ref0)
  let ref2 := if ref1 = some node then nextSibling F1 node else ref1
  let F2 :=
    match (getN F1 node).parent with
    | some q => removeFromParent F1 node q
    | none => F1
  let base :=
    match ref2 with
    | none => nodeLength F2 parent
    | some c => idx F2 c
  let newOffset :=
    if (getN F2 node).kind = .documentFragment then base + nodeLength F2 node
    else base + 1
  let (F3, _) ← preInsert F2 node parent ref2
  let r' :=
    if collapsedR r then { r with endNode := parent, endOffset := newOffset }
    else r
  return (F3, r')

/-! The attribute mutation engine (ElementAlgorithmImpl), over its own small
state: an arena of attribute nodes plus, per element id, the element's
ordered attribute list.  Emission-ordered event traces make the queueing of
mutation records, the change hook and the state writes observable. -/

/-- An attribute node: namespace, local name, value and owning element. -/
structure AttrN where
  ns : Option String
  localName : String
  value : String
  owner : Option Nat
deriving DecidableEq, Repr

instance : Inhabited AttrN := ⟨⟨none, "", "", none⟩⟩

/-- The attribute-engine state. -/
structure AState where
  attrs : List AttrN
  lists : List (List Nat)
deriving DecidableEq, Repr

def getA (σ : AState) (a : Nat) : AttrN := σ.attrs.getD a default

def getL (σ : AState) (e : Nat) : List Nat := σ.lists.getD e []

def setA (σ : AState) (a : Nat) (x : AttrN) : AState :=
  { σ with attrs := σ.attrs.set a x }

def setL (σ : AState) (e : Nat) (l : List Nat) : AState :=
  { σ with lists := σ.lists.set e l }

/-- Observable events of the attribute engine, listed in emission order by
each operation: the queued attribute mutation record (handed to the
Observer collaborator), the attribute-change hook invocation, and the
writes to the attribute state. -/
inductive AEvent
  | queueRecord (elem : Nat) (localName : String) (ns : Option String)
      (oldValue : Option String)
  | changeHook (elem : Nat) (localName : String)
      (oldValue newValue : Option String)
  | writeValue (attr : Nat) (v : String)
  | listAppend (elem attr : Nat)
  | listReplace (elem old new_ : Nat)
  | writeOwner (attr : Nat) (owner : Option Nat)
deriving DecidableEq, Repr

/-- ElementAlgorithmImpl.change, transcribed: queue the record carrying the
current value, run the change hook with (old = current, new = the new
value), and only then overwrite the stored value. -/
def change (σ : AState) (a e : Nat) (v : String) : AState × List AEvent :=
  let A := getA σ a
  (setA σ a { A with value := v },
   [.queueRecord e A.localName A.ns (some A.value),
    .changeHook e A.localName (some A.value) (some v),
    .writeValue a v])

/-- ElementAlgorithmImpl.append, transcribed: record with a null old value,
hook (null -> value), then list append and owner write. -/
def appendAttr (σ : AState) (a e : Nat) : AState × List AEvent :=
  let A := getA σ a
  let σ1 := setL σ e (getL σ e ++ [a])
  let σ2 := setA σ1 a { getA σ1 a with owner := some e }
  (σ2,
   [.queueRecord e A.localName A.ns none,
    .changeHook e A.localName none (some A.value),
    .listAppend e a,
    .writeOwner a (some e)])

/-- Replacement within an ordered list, in place (infra.list.replace). -/
def replaceL (l : List Nat) (o n : Nat) : List Nat :=
  l.map (fun x => if x = o then n else x)

/-- ElementAlgorithmImpl.replace, transcribed: record and hook built from the
old attribute's value and the new attribute's value, then the list swap and
the two owner writes. -/
def replaceAttr (σ : AState) (o n e : Nat) : AState × List AEvent :=
  let O := getA σ o
  let N := getA σ n
  let σ1 := setL σ e (replaceL (getL σ e) o n)
  let σ2 := setA σ1 o { getA σ1 o with owner := none }
  let σ3 := setA σ2 n { getA σ2 n with owner := some e }
  (σ3,
   [.queueRecord e O.localName O.ns (some O.value),
    .changeHook e O.localName (some O.value) (some N.value),
    .listReplace e o n,
    .writeOwner o none,
    .writeOwner n (some e)])

/-- ElementAlgorithmImpl.getAnAttributeByNamespaceAndLocalName, transcribed:
an empty namespace argument stands for the null namespace; the first list
member matching on namespace and local name is answered. -/
def getAnAttributeByNamespaceAndLocalName (σ : AState) (namesp : String)
    (localName : String) (e : Nat) : Option Nat :=
  let ns : Option String := if namesp = "" then none else some namesp
  (getL σ e).find? (fun a =>
    (getA σ a).ns == ns && (getA σ a).localName == localName)

/-- ElementAlgorithmImpl.setAnAttribute, transcribed: reject an attribute
owned elsewhere, look up by the attribute's namespace (null folded to the
empty string, the or-empty idiom of the call) and local name, answer the
attribute itself when the lookup finds it, otherwise replace or append.
The answer carries the new state, the returned attribute and the events. -/
def setAnAttribute (σ : AState) (a e : Nat) :
    Except DOMErr (AState × Option Nat × List AEvent) :=
  let A := getA σ a
  if A.owner ≠ none ∧ A.owner ≠ some e then .error .inUseAttribute
  else
    let oldAttr :=
      getAnAttributeByNamespaceAndLocalName σ (A.ns.getD "") A.localName e
    if oldAttr = some a then .ok (σ, some a, [])
    else
      match oldAttr with
      | some o =>
        let so := replaceAttr σ o a e
        .ok (so.1, some o, so.2)
      | none =>
        let so := appendAttr σ a e
        .ok (so.1, none, so.2)

/-- The toLowerCase call of insertAdjacent: character-wise lowercasing
(structural, so that it evaluates inside the kernel). -/
def strToLower (s : String) : String := String.mk (s.toList.map Char.toLower)

/-- ElementAlgorithmImpl.insertAdjacent, transcribed: the position keyword is
lowercased, then dispatched to pre-insertion; a missing parent answers null
for the two outside positions; anything else is a syntax error. -/
def insertAdjacent (F : Forest) (element : Nat) (whereStr : String)
    (node : Nat) : Except DOMErr (Forest × Option Nat) :=
  match strToLower whereStr with
  | "beforebegin" =>
    match (getN F element).parent with
    | none => .ok (F, none)
    | some p =>
      (preInsert F node p (some element)).map (fun fn => (fn.1, some fn.2))
  | "afterbegin" =>
    (preInsert F node element (firstChild F element)).map
      (fun fn => (fn.1, some fn.2))
  | "beforeend" =>
    (preInsert F node element none).map (fun fn => (fn.1, some fn.2))
  | "afterend" =>
    match (getN F element).parent with
    | none => .ok (F, none)
    | some p =>
      (preInsert F node p (nextSibling F element)).map
        (fun fn => (fn.1, some fn.2))
  | _ => .error .syntaxErr

/-! The traversal engine (TreeWalkerAlgorithmImpl). -/

/-- The three-way filter result. -/
inductive FilterResult
  | Accept
  | Reject
  | Skip
deriving DecidableEq, Repr

/-- A walker cursor: root and current node. -/
structure TW where
  root : Nat
  current : Nat
deriving DecidableEq, Repr

/-- Result of the inner sibling/descendant scan of traverseSiblings: a node
was accepted, or the sibling chain dried up leaving the scan anchored at a
node, or the fuel ran out. -/
inductive ScanRes
  | accepted (n : Nat)
  | exhausted (n : Nat)
  | fuelOut
deriving DecidableEq, Repr

/-- The inner while loop of traverseSiblings (steps 3.1-3.2.5), transcribed:
adopt the sibling, accept it if the filter accepts, otherwise descend into
its first (or last) child unless the filter rejected or there is no child,
in which case slide to the next (or previous) sibling; exhaustion is
reaching a null sibling. -/
def siblingScan (F : Forest) (φ : Nat → FilterResult) (next : Bool) :
    Nat → Nat → Option Nat → ScanRes
  | _, node, none => .exhausted node
  | 0, _, some _ => .fuelOut
  | fuel + 1, _, some s =>
    match φ s with
    | .Accept => .accepted s
    | res =>
      let sib1 := if next then firstChild F s else lastChild F s
      let sib2 :=
        if res = .Reject ∨ sib1 = none then
          (if next then nextSibling F s else prevSibling F s)
        else sib1
      siblingScan F φ next fuel s sib2

/-- The outer loop of traverseSiblings (steps 3-3.5), transcribed: run the
sibling scan at the current level; on exhaustion climb to the parent,
answering null when the parent is missing or is the root or is itself
accepted by the filter, and otherwise repeating at the parent level.  The
answer is none on fuel exhaustion, otherwise some (result, new current). -/
def travSibAux (F : Forest) (φ : Nat → FilterResult) (next : Bool)
    (root : Nat) : Nat → Nat → Nat → Option (Option Nat × Nat)
  | 0, _, _ => none
  | fuel + 1, node, cur =>
    let sib0 := if next then nextSibling F node else prevSibling F node
    match siblingScan F φ next F.length node sib0 with
    | .accepted n => some (some n, n)
    | .fuelOut => none
    | .exhausted m =>
      match (getN F m).parent with
      | none => some (none, cur)
      | some p =>
        if p = root then some (none, cur)
        else if φ p = .Accept then some (none, cur)
        else travSibAux F φ next root fuel p cur

/-- TreeWalkerAlgorithmImpl.traverseSiblings, transcribed: null immediately
when current is root, else the sibling search with ancestor climbing. -/
def traverseSiblings (F : Forest) (φ : Nat → FilterResult) (next : Bool)
    (w : TW) : Option (Option Nat × Nat) :=
  if w.current = w.root then some (none, w.current)
  else travSibAux F φ next w.root (F.length + 1) w.current w.current

/-! The range-order invariant, the ancestor-chain predicate and forest
well-formedness, used to state and prove claim C4. -/

def orderOK (F : Forest) (r : LRange) : Prop :=
  position F r.startBp r.endBp = .Equal ∨ position F r.startBp r.endBp = .Before

/-- A node x lies on the inclusive ancestor chain of i, within fuel steps. -/
def onChain (F : Forest) (x : Nat) : Nat → Nat → Bool
  | 0, i => i == x
  | f + 1, i =>
    i == x ||
      (match (getN F i).parent with
       | none => false
       | some p => onChain F x f p)

/-- Well-formedness of the arena: parent/child coherence in both directions,
in-range ids, duplicate-free child lists, parent chains that terminate, and
document fragments always detached (a fragment is never inserted as itself,
so it has no parent). -/
structure WF (F : Forest) : Prop where
  childParent : ∀ i, i < F.length → ∀ j, j ∈ (getN F i).children →
    j < F.length ∧ (getN F j).parent = some i
  parentMem : ∀ i, i < F.length → ∀ p, (getN F i).parent = some p →
    p < F.length ∧ i ∈ (getN F p).children
  childNodup : ∀ i, i < F.length → ((getN F i).children).Nodup
  chainOK : ∀ i, i < F.length → reachesRoot F (F.length - 1) i = true
  fragmentRoot : ∀ i, i < F.length → (getN F i).kind = .documentFragment →
    (getN F i).parent = none

def c4Forest : Forest :=
  [⟨.element, "", none, [1, 2]⟩,
   ⟨.text, "hello", some 0, []⟩,
   ⟨.element, "", some 0, []⟩]

def c4r : LRange := ⟨1, 2, 1, 2⟩

def c4rn : LRange := ⟨1, 1, 1, 4⟩

def c4Fins : Forest :=
  [⟨.element, "", none, [1, 2, 3]⟩,
   ⟨.text, "he", some 0, []⟩,
   ⟨.element, "", some 0, []⟩,
   ⟨.text, "llo", some 0, []⟩]

def c4Finsn : Forest :=
  [⟨.element, "", none, [1, 2, 3]⟩,
   ⟨.text, "h", some 0, []⟩,
   ⟨.element, "", some 0, []⟩,
   ⟨.text, "ello", some 0, []⟩]

/-- A forest whose root 0 is the end node of the range below and an ancestor
of its start node: extract's reference-node walk then stops at the parentless
root and the range is collapsed onto the stored null parent (represented by
the out-of-arena id of the returned forest). -/
def c4RootForest : Forest :=
  [⟨.element, "", none, [1]⟩, ⟨.text, "ab", some 0, []⟩]

/-- The forest extract returns on c4RootForest with range (1,1)-(0,1). -/
def c4RootOut : Forest :=
  [⟨.element, "", none, [1]⟩,
   ⟨.text, "a", some 0, []⟩,
   ⟨.documentFragment, "", none, [3]⟩,
   ⟨.text, "b", some 2, []⟩]

/-! Basic lemmas about the lexicographic boundary-point order. -/

theorem lexCompare_refl (l : List Nat) : lexCompare l l = .Equal := by
  induction l with
  | nil => rfl
  | cons a as ih => simp [lexCompare, ih]

theorem lexCompare_append_left (p l1 l2 : List Nat) :
    lexCompare (p ++ l1) (p ++ l2) = lexCompare l1 l2 := by
  induction p with
  | nil => rfl
  | cons a p ih => simp [lexCompare, ih]

/-- Orientation reversal for the boundary order. -/
def BoundaryPosition.flip : BoundaryPosition → BoundaryPosition
  | .Before => .After
  | .Equal => .Equal
  | .After => .Before

theorem lexCompare_swap (l1 l2 : List Nat) :
    lexCompare l2 l1 = (lexCompare l1 l2).flip := by
  induction l1 generalizing l2 with
  | nil => cases l2 <;> rfl
  | cons a as ih =>
    cases l2 with
    | nil => rfl
    | cons b bs =>
      rcases Nat.lt_trichotomy a b with hab | hab | hab
      · have hba : ¬ b < a := Nat.lt_asymm hab
        simp only [lexCompare, if_pos hab, if_neg hba]
        rfl
      · subst hab
        simp only [lexCompare, if_neg (Nat.lt_irrefl a)]
        exact ih bs
      · have hba : ¬ a < b := Nat.lt_asymm hab
        simp only [lexCompare, if_pos hab, if_neg hba]
        rfl

theorem position_refl (F : Forest) (bp : BoundaryPoint) :
    position F bp bp = .Equal := by
  simp [position, lexCompare_refl]

theorem position_same_node (F : Forest) (n o1 o2 : Nat) :
    position F (n, o1) (n, o2) =
      (if o1 < o2 then .Before else if o2 < o1 then .After else .Equal) := by
  simp [position, lexCompare_append_left, lexCompare]

theorem position_same_node_le (F : Forest) (n o1 o2 : Nat) (h : o1 ≤ o2) :
    position F (n, o1) (n, o2) = .Equal ∨ position F (n, o1) (n, o2) = .Before := by
  rw [position_same_node]
  rcases Nat.lt_or_ge o1 o2 with h1 | h1
  · right; simp [h1]
  · left
    have : o1 = o2 := Nat.le_antisymm h h1
    simp [this]

theorem position_swap (F : Forest) (A B : BoundaryPoint) :
    position F B A = (position F A B).flip := by
  unfold position
  rw [lexCompare_swap]

/-- When the comparison of A against B is not After, it is Equal or Before:
the boundary order is a three-valued total comparison. -/
theorem position_not_after (F : Forest) (A B : BoundaryPoint)
    (h : position F A B ≠ .After) :
    position F A B = .Equal ∨ position F A B = .Before := by
  cases hp : position F A B
  · right; rfl
  · left; rfl
  · exact absurd hp h

/-! Claims C5 and C6: the endpoint-setting algorithms. -/

/-- Claim C5: for every range r, node n and offset k, setStart (resp.
setEnd) throws InvalidNodeType on a doctype node, throws IndexSize when the
offset exceeds the node's length (both leaving the range as it was), and
otherwise sets the moved endpoint to (n, k), first snapping the unmoved
endpoint to (n, k) exactly when (n, k) would invert the ordering against
the unmoved endpoint (is After the end for setStart, Before the start for
setEnd) or n's root differs from the range's current root. -/
theorem claim_C5_set_start_end_characterization (F : Forest) (r : LRange)
    (n k : Nat) :
    ((getN F n).kind = .documentType →
      setTheStart F r n k = (some .invalidNodeType, r) ∧
      setTheEnd F r n k = (some .invalidNodeType, r)) ∧
    ((getN F n).kind ≠ .documentType → k > nodeLength F n →
      setTheStart F r n k = (some .indexSize, r) ∧
      setTheEnd F r n k = (some .indexSize, r)) ∧
    ((getN F n).kind ≠ .documentType → k ≤ nodeLength F n →
      setTheStart F r n k =
        (none,
          if position F (n, k) r.endBp = .After ∨ rootR F r ≠ rootNode F n
          then ⟨n, k, n, k⟩
          else ⟨n, k, r.endNode, r.endOffset⟩) ∧
      setTheEnd F r n k =
        (none,
          if position F (n, k) r.startBp = .Before ∨ rootR F r ≠ rootNode F n
          then ⟨n, k, n, k⟩
          else ⟨r.startNode, r.startOffset, n, k⟩)) := by
  refine ⟨?_, ?_, ?_⟩
  · intro h
    constructor <;> simp [setTheStart, setTheEnd, h]
  · intro h1 h2
    constructor <;> simp [setTheStart, setTheEnd, h1, h2]
  · intro h1 h2
    have h2' : ¬ k > nodeLength F n := Nat.not_lt.mpr h2
    constructor
    · by_cases hc : position F (n, k) r.endBp = .After ∨ rootR F r ≠ rootNode F n
      · simp [setTheStart, h1, h2', hc]
      · simp [setTheStart, h1, h2', hc]
    · by_cases hc : position F (n, k) r.startBp = .Before ∨ rootR F r ≠ rootNode F n
      · simp [setTheEnd, h1, h2', hc]
      · simp [setTheEnd, h1, h2', hc]

/-- A tiny sample forest: an element root (id 0) with a text child "hello"
(id 1) and an element child (id 2), plus a detached doctype (id 3). -/
def egForest : Forest :=
  [⟨.element, "", none, [1, 2]⟩,
   ⟨.text, "hello", some 0, []⟩,
   ⟨.element, "", some 0, []⟩,
   ⟨.documentType, "", none, []⟩]

/-- A sample range over egForest: (text 1, 0) to (text 1, 2). -/
def egRange : LRange := ⟨1, 0, 1, 2⟩

/-- Witness for claim C5 at a concrete input: the doctype rejection, the
offset rejection and the snap-free success case all follow by applying the
characterization. -/
theorem claim_C5_witness :
    setTheStart egForest egRange 3 0 = (some .invalidNodeType, egRange) ∧
    setTheStart egForest egRange 1 9 = (some .indexSize, egRange) ∧
    setTheEnd egForest egRange 1 1 = (none, ⟨1, 0, 1, 1⟩) := by
  refine ⟨((claim_C5_set_start_end_characterization egForest egRange 3 0).1
      (by decide)).1, ?_, ?_⟩
  · exact ((claim_C5_set_start_end_characterization egForest egRange 1 9).2.1
      (by decide) (by decide)).1
  · have h := ((claim_C5_set_start_end_characterization egForest egRange 1 1).2.2
      (by decide) (by decide)).2
    rw [h]
    decide

/-- Counterexample to claim C6 as stated: at this input the offset is out of
bounds and the new point (2, 9) is After the range's end, so by the claim
the endpoint-collapsing assignment would run before the bounds check and
the throwing call would leave the range collapsed onto (2, 9); the code
instead throws IndexSize with the range exactly as it was (and it was not
collapsed). -/
theorem claim_C6_counterexample :
    (setTheStart egForest egRange 2 9).1 = some .indexSize ∧
    position egForest (2, 9) egRange.endBp = .After ∧
    (setTheStart egForest egRange 2 9).2 = egRange ∧
    egRange.startBp ≠ egRange.endBp := by decide

/-- Claim C6 (amended): the offset-bounds check precedes the
endpoint-collapsing assignment, so a call to setStart or setEnd that throws
(InvalidNodeType or IndexSize) leaves the range entirely unchanged - no
partial effect. -/
theorem claim_C6_throw_leaves_range_unchanged (F : Forest) (r : LRange)
    (n k : Nat) (e : DOMErr) :
    ((setTheStart F r n k).1 = some e → (setTheStart F r n k).2 = r) ∧
    ((setTheEnd F r n k).1 = some e → (setTheEnd F r n k).2 = r) := by
  constructor
  · intro h
    by_cases h1 : (getN F n).kind = .documentType
    · simp [setTheStart, h1]
    · by_cases h2 : k > nodeLength F n
      · simp [setTheStart, h1, h2]
      · exfalso
        simp [setTheStart, h1, h2] at h
  · intro h
    by_cases h1 : (getN F n).kind = .documentType
    · simp [setTheEnd, h1]
    · by_cases h2 : k > nodeLength F n
      · simp [setTheEnd, h1, h2]
      · exfalso
        simp [setTheEnd, h1, h2] at h

/-- Witness for the amended claim C6 at a concrete input. -/
theorem claim_C6_witness :
    (setTheStart egForest egRange 1 9).2 = egRange ∧
    (setTheEnd egForest egRange 3 0).2 = egRange := by
  constructor
  · exact (claim_C6_throw_leaves_range_unchanged egForest egRange 1 9
      .indexSize).1 (by decide)
  · exact (claim_C6_throw_leaves_range_unchanged egForest egRange 3 0
      .invalidNodeType).2 (by decide)

/-! Claims C7 and C10: the attribute mutation engine. -/

theorem getD_set_self {α : Type} [Inhabited α] (l : List α) (i : Nat) (x : α)
    (h : i < l.length) : (l.set i x).getD i default = x := by
  simp [List.getD, List.get?_eq_getElem?, List.getElem?_set_eq_of_lt x h]

/-- Claim C7: change on an attribute queues exactly one attribute mutation
record, its old-value payload is the attribute's stored value at call
entry, the record is emitted before the stored value is overwritten, the
change hook then runs with (old = that entry value, new = the new value),
and only afterwards is the stored value set to the new value - all visible
in the emission-ordered event trace, whose final event is the value write
and whose resulting state holds the new value. -/
theorem claim_C7_change_queues_record_before_write (σ : AState) (a e : Nat)
    (v : String) (ha : a < σ.attrs.length) :
    (change σ a e v).2 =
      [.queueRecord e (getA σ a).localName (getA σ a).ns (some (getA σ a).value),
       .changeHook e (getA σ a).localName (some (getA σ a).value) (some v),
       .writeValue a v] ∧
    ((change σ a e v).2.countP (fun ev =>
      match ev with
      | .queueRecord _ _ _ _ => true
      | _ => false)) = 1 ∧
    getA (change σ a e v).1 a = { getA σ a with value := v } := by
  refine ⟨rfl, rfl, ?_⟩
  show (σ.attrs.set a { getA σ a with value := v }).getD a default = _
  exact getD_set_self σ.attrs a _ ha

/-- A one-attribute sample state: attribute 0 is "id" = "old" owned by
element 0, present in element 0's attribute list. -/
def egAttrState : AState := ⟨[⟨none, "id", "old", some 0⟩], [[0]]⟩

/-- Witness for claim C7 at a concrete input. -/
theorem claim_C7_witness :
    (change egAttrState 0 0 "new").2 =
      [.queueRecord 0 "id" none (some "old"),
       .changeHook 0 "id" (some "old") (some "new"),
       .writeValue 0 "new"] ∧
    getA (change egAttrState 0 0 "new").1 0 = ⟨none, "id", "new", some 0⟩ := by
  have h := claim_C7_change_queues_record_before_write egAttrState 0 0 "new"
    (by decide)
  exact ⟨h.1, h.2.2⟩

/-- Claim C10: setAnAttribute on an attribute already owned by the element
and found by the namespace/local-name lookup returns the attribute itself,
throws nothing, emits no events (in particular queues no mutation record)
and leaves the whole attribute state - the element's list and the
attribute's owner - unchanged. -/
theorem claim_C10_setAnAttribute_identity_noop (σ : AState) (a e : Nat)
    (ho : (getA σ a).owner = some e)
    (hl : getAnAttributeByNamespaceAndLocalName σ ((getA σ a).ns.getD "")
      (getA σ a).localName e = some a) :
    setAnAttribute σ a e = .ok (σ, some a, []) := by
  simp [setAnAttribute, ho, hl]

/-- Witness for claim C10 at a concrete input. -/
theorem claim_C10_witness :
    setAnAttribute egAttrState 0 0 = .ok (egAttrState, some 0, []) :=
  claim_C10_setAnAttribute_identity_noop egAttrState 0 0 (by decide) (by decide)

/-! Claim C8: insertAdjacent. -/

/-- Counterexample to claim C8 as stated: "BEFOREBEGIN" is not one of the
four recognized position values, so by the claim the call must fail with
SyntaxError; the code lowercases the argument first and instead takes the
beforebegin path, returning null for the parentless element. -/
theorem claim_C8_counterexample :
    insertAdjacent egForest 0 "BEFOREBEGIN" 2 = .ok (egForest, none) ∧
    ("BEFOREBEGIN" : String) ∉
      (["beforebegin", "afterbegin", "beforeend", "afterend"] : List String) := by
  constructor
  · rfl
  · decide

/-- Claim C8 (amended): insertAdjacent lowercases the position argument and
then dispatches: it returns null (without error) for the beforebegin and
afterend positions when the element's parent is null, pre-inserts at the
corresponding position for the four recognized values, and fails with
SyntaxError exactly for the arguments whose lowercase form is none of the
four. -/
theorem claim_C8_insertAdjacent_dispatch (F : Forest) (e nd : Nat)
    (ws : String) :
    (strToLower ws ∉ (["beforebegin", "afterbegin", "beforeend", "afterend"] :
        List String) →
      insertAdjacent F e ws nd = .error .syntaxErr) ∧
    (strToLower ws = "beforebegin" → (getN F e).parent = none →
      insertAdjacent F e ws nd = .ok (F, none)) ∧
    (∀ p, strToLower ws = "beforebegin" → (getN F e).parent = some p →
      insertAdjacent F e ws nd =
        (preInsert F nd p (some e)).map (fun fn => (fn.1, some fn.2))) ∧
    (strToLower ws = "afterbegin" →
      insertAdjacent F e ws nd =
        (preInsert F nd e (firstChild F e)).map (fun fn => (fn.1, some fn.2))) ∧
    (strToLower ws = "beforeend" →
      insertAdjacent F e ws nd =
        (preInsert F nd e none).map (fun fn => (fn.1, some fn.2))) ∧
    (strToLower ws = "afterend" → (getN F e).parent = none →
      insertAdjacent F e ws nd = .ok (F, none)) ∧
    (∀ p, strToLower ws = "afterend" → (getN F e).parent = some p →
      insertAdjacent F e ws nd =
        (preInsert F nd p (nextSibling F e)).map (fun fn => (fn.1, some fn.2))) := by
  refine ⟨?_, ?_, ?_, ?_, ?_, ?_, ?_⟩
  · intro hmem
    simp only [List.mem_cons, List.not_mem_nil, or_false, not_or] at hmem
    obtain ⟨h1, h2, h3, h4⟩ := hmem
    unfold insertAdjacent
    split
    · exact absurd (by assumption) h1
    · exact absurd (by assumption) h2
    · exact absurd (by assumption) h3
    · exact absurd (by assumption) h4
    · rfl
  · intro h hp
    unfold insertAdjacent
    rw [h]
    split
    · rw [hp]
    · rename_i hq; exact absurd hq (by decide)
    · rename_i hq; exact absurd hq (by decide)
    · rename_i hq; exact absurd hq (by decide)
    · rename_i h1 h2 h3 h4; exact absurd rfl h1
  · intro p h hp
    unfold insertAdjacent
    rw [h]
    split
    · rw [hp]
    · rename_i hq; exact absurd hq (by decide)
    · rename_i hq; exact absurd hq (by decide)
    · rename_i hq; exact absurd hq (by decide)
    · rename_i h1 h2 h3 h4; exact absurd rfl h1
  · intro h
    unfold insertAdjacent
    rw [h]
    split
    · rename_i hq; exact absurd hq (by decide)
    · rfl
    · rename_i hq; exact absurd hq (by decide)
    · rename_i hq; exact absurd hq (by decide)
    · rename_i h1 h2 h3 h4; exact absurd rfl h2
  · intro h
    unfold insertAdjacent
    rw [h]
    split
    · rename_i hq; exact absurd hq (by decide)
    · rename_i hq; exact absurd hq (by decide)
    · rfl
    · rename_i hq; exact absurd hq (by decide)
    · rename_i h1 h2 h3 h4; exact absurd rfl h3
  · intro h hp
    unfold insertAdjacent
    rw [h]
    split
    · rename_i hq; exact absurd hq (by decide)
    · rename_i hq; exact absurd hq (by decide)
    · rename_i hq; exact absurd hq (by decide)
    · rw [hp]
    · rename_i h1 h2 h3 h4; exact absurd rfl h4
  · intro p h hp
    unfold insertAdjacent
    rw [h]
    split
    · rename_i hq; exact absurd hq (by decide)
    · rename_i hq; exact absurd hq (by decide)
    · rename_i hq; exact absurd hq (by decide)
    · rw [hp]
    · rename_i h1 h2 h3 h4; exact absurd rfl h4

/-- Witness for the amended claim C8 at concrete inputs: the syntax-error
branch and the parentless beforebegin branch. -/
theorem claim_C8_witness :
    insertAdjacent egForest 0 "nonsense" 2 = .error .syntaxErr ∧
    insertAdjacent egForest 0 "BeforeBegin" 2 = .ok (egForest, none) := by
  constructor
  · exact (claim_C8_insertAdjacent_dispatch egForest 0 2 "nonsense").1
      (by decide)
  · exact (claim_C8_insertAdjacent_dispatch egForest 0 2 "BeforeBegin").2.1
      (by decide) (by decide)

/-! Claim C9: the sibling traversal's climb step. -/

/-- Claim C9: in traverseSiblings, when the current node is not the root and
the sibling/descendant scan at a level finds no accepted node, the walk
climbs: it answers null if the scan node's parent is missing or is the
root, it also answers null - emitting nothing - when the filter accepts
that non-null non-root parent itself, and otherwise it repeats the sibling
search at the parent level. -/
theorem claim_C9_traverse_siblings_climb (F : Forest) (φ : Nat → FilterResult)
    (next : Bool) (w : TW) (m : Nat)
    (hcur : w.current ≠ w.root)
    (hscan : siblingScan F φ next F.length w.current
        (if next then nextSibling F w.current else prevSibling F w.current) =
      .exhausted m) :
    traverseSiblings F φ next w =
      match (getN F m).parent with
      | none => some (none, w.current)
      | some p =>
        if p = w.root then some (none, w.current)
        else if φ p = .Accept then some (none, w.current)
        else travSibAux F φ next w.root F.length p w.current := by
  unfold traverseSiblings
  rw [if_neg hcur]
  simp only [travSibAux]
  rw [hscan]

/-- Forest for the walker witness: element root 0 with children 1 and 3;
element 1 has child 2. -/
def walkForest : Forest :=
  [⟨.element, "", none, [1, 3]⟩,
   ⟨.element, "", some 0, [2]⟩,
   ⟨.element, "", some 1, []⟩,
   ⟨.element, "", some 0, []⟩]

/-- A filter accepting exactly node 1 (the parent to be climbed to). -/
def walkFilter : Nat → FilterResult := fun n => if n = 1 then .Accept else .Skip

/-- Witness for claim C9 at a concrete input: from current node 2 (no
siblings) the walk climbs to parent 1, which the filter accepts, so the
traversal answers null and the current node stays put. -/
theorem claim_C9_witness :
    traverseSiblings walkForest walkFilter true ⟨0, 2⟩ = some (none, 2) := by
  have h := claim_C9_traverse_siblings_climb walkForest walkFilter true
    ⟨0, 2⟩ 2 (by decide) (by rfl)
  rw [h]
  decide

/-! Claims C1, C2 and C3: the boundary-children handling of extract and
cloneTheContents, each settled by evaluating the transcribed code at a
concrete input. -/

/-- Forest for claim C1: element root 0 with children element 1 and element
2; element 2 has children element 3 and text 4 with data "cd". -/
def cloneForest : Forest :=
  [⟨.element, "", none, [1, 2]⟩,
   ⟨.element, "", some 0, []⟩,
   ⟨.element, "", some 0, [3, 4]⟩,
   ⟨.element, "", some 2, []⟩,
   ⟨.text, "cd", some 2, []⟩]

/-- Range over cloneForest from (root, 1) to (text 4, offset 1). -/
def cloneRange : LRange := ⟨0, 1, 4, 1⟩

/-- Claim C1 (code behavior at the failing input): cloneTheContents on a
range whose last partially contained child is an element mutates the source
tree - step 17 of the transcription calls extract on the subrange, so the
contained child (node 3) is moved out of element 2 and the end text node 4
is spliced from "cd" to "d".  The claim requires the source tree unchanged. -/
theorem claim_C1_cloneContents_mutates_source :
    (cloneTheContents 10 cloneForest cloneRange).toOption.map
        (fun x => ((getN x.1 2).children, (getN x.1 4).data)) =
      some ([4], "d") ∧
    (getN cloneForest 2).children = [3, 4] ∧
    (getN cloneForest 4).data = "cd" := by
  refine ⟨?_, rfl, rfl⟩
  rfl

/-- Forest for claim C2: element root 0 with single child element 1, which
has single child text 2 with data "xy". -/
def scanForest : Forest :=
  [⟨.element, "", none, [1]⟩,
   ⟨.element, "", some 0, [2]⟩,
   ⟨.text, "xy", some 1, []⟩]

/-- Range over scanForest from (root, 0) to (text 2, offset 1). -/
def scanRange : LRange := ⟨0, 0, 2, 1⟩

/-- Claim C2 (code behavior at the failing input): element 1 sits at index 0
of the common ancestor (the root) and is partially contained on the end
side, and the guard for computing the last partially contained child holds,
yet the backward scan - whose loop index stays strictly positive - answers
none, so extract applies no end-side treatment at all: it returns an empty
fragment and leaves the text data untouched.  The claim (and the
algorithm's own step-10 comment) requires the end-side treatment to be
applied to the child at index 0. -/
theorem claim_C2_end_boundary_child_zero_skipped :
    isPartiallyContained scanForest 1 scanRange = true ∧
    idx scanForest 1 = 0 ∧
    isAncestorOf scanForest scanRange.startNode scanRange.endNode true = false ∧
    scanBackPos scanForest scanRange (getN scanForest 0).children
      ((getN scanForest 0).children.length - 1) = none ∧
    (extract 10 scanForest scanRange).toOption.map
        (fun x => ((getN x.1 x.2.1).children, (getN x.1 2).data)) =
      some ([], "xy") := by
  refine ⟨rfl, rfl, rfl, rfl, ?_⟩
  rfl

/-- Forest for claim C3: element root 0 with children element 1 and element
3; element 1 has single child text 2 with data "ab". -/
def cloneStartForest : Forest :=
  [⟨.element, "", none, [1, 3]⟩,
   ⟨.element, "", some 0, [2]⟩,
   ⟨.text, "ab", some 1, []⟩,
   ⟨.element, "", some 0, []⟩]

/-- Range over cloneStartForest from (text 2, offset 1) to (root, 2). -/
def cloneStartRange : LRange := ⟨2, 1, 0, 2⟩

/-- Claim C3 (code bug at the failing input): the first partially contained
child is element 1 while the start node is the text node 2.  The claimed
algorithm emits a clone of that element, populated recursively, and succeeds;
steps 14.1/16.1 of the source instead clone the original start node, so the
emitted clone is a text node, and the next statement - appending the
recursive subfragment under that clone - fails the standard pre-insertion
validity check: both cloneContents and extract throw HierarchyRequestError
instead of producing the claimed fragment. -/
theorem claim_C3_first_boundary_clone_wrong_node :
    ((getN cloneStartForest 0).children.find?
      (fun c => isPartiallyContained cloneStartForest c cloneStartRange)) =
        some 1 ∧
    (getN cloneStartForest 1).kind = .element ∧
    (getN cloneStartForest cloneStartRange.startNode).kind = .text ∧
    cloneTheContents 10 cloneStartForest cloneStartRange =
      .error .hierarchyRequest ∧
    extract 10 cloneStartForest cloneStartRange = .error .hierarchyRequest := by
  refine ⟨rfl, rfl, rfl, rfl, rfl⟩

/-! Claim C4: order preservation of the Range Engine mutations, with its
support library (list index, arena effect, ancestor chain and path lemmas). -/

theorem collapsedR_eq (r : LRange) (h : collapsedR r = true) :
    r.startNode = r.endNode ∧ r.startOffset = r.endOffset := by
  simp [collapsedR] at h
  exact h

theorem orderOK_of_collapsed (F : Forest) (r : LRange)
    (h : collapsedR r = true) : orderOK F r := by
  obtain ⟨h1, h2⟩ := collapsedR_eq r h
  left
  show position F (r.startNode, r.startOffset) (r.endNode, r.endOffset) = .Equal
  rw [h1, h2]
  exact position_refl F _

theorem orderOK_same_node (F G : Forest) (r : LRange)
    (hn : r.startNode = r.endNode) (h : orderOK F r) : orderOK G r := by
  unfold orderOK LRange.startBp LRange.endBp at *
  rw [hn] at h ⊢
  rw [position_same_node] at h ⊢
  exact h

theorem setStart_ok (F : Forest) (r : LRange) (n k : Nat) (out : LRange)
    (h : setTheStart F r n k = (none, out)) : orderOK F out := by
  unfold setTheStart at h
  by_cases h1 : (getN F n).kind = .documentType
  · simp [h1] at h
  · by_cases h2 : k > nodeLength F n
    · simp [h1, h2] at h
    · by_cases hc : position F (n, k) r.endBp = .After ∨ rootR F r ≠ rootNode F n
      · simp [h1, h2, hc] at h
        subst h
        left
        exact position_refl F (n, k)
      · simp [h1, h2, hc] at h
        subst h
        push_neg at hc
        exact position_not_after F (n, k) r.endBp hc.1

theorem setEnd_ok (F : Forest) (r : LRange) (n k : Nat) (out : LRange)
    (h : setTheEnd F r n k = (none, out)) : orderOK F out := by
  unfold setTheEnd at h
  by_cases h1 : (getN F n).kind = .documentType
  · simp [h1] at h
  · by_cases h2 : k > nodeLength F n
    · simp [h1, h2] at h
    · by_cases hc : position F (n, k) r.startBp = .Before ∨ rootR F r ≠ rootNode F n
      · simp [h1, h2, hc] at h
        subst h
        left
        exact position_refl F (n, k)
      · simp [h1, h2, hc] at h
        subst h
        push_neg at hc
        show position F r.startBp (n, k) = .Equal ∨ position F r.startBp (n, k) = .Before
        cases hp : position F r.startBp (n, k)
        · right; rfl
        · left; rfl
        · exfalso
          apply hc.1
          rw [position_swap F r.startBp (n, k), hp]
          rfl

theorem select_ok (F : Forest) (n : Nat) (r : LRange) (out : LRange)
    (h : select F n r = (none, out)) : orderOK F out := by
  unfold select at h
  cases hp : (getN F n).parent with
  | none => rw [hp] at h; simp at h
  | some p =>
    rw [hp] at h
    simp at h
    subst h
    right
    show position F (p, idx F n) (p, idx F n + 1) = .Before
    rw [position_same_node]
    simp

theorem extract_ok (fuel : Nat) (F : Forest) (r : LRange) (F' : Forest)
    (frag : Nat) (r2 : LRange) (hord : orderOK F r)
    (h : extract fuel F r = .ok (F', frag, r2)) : orderOK F' r2 := by
  cases fuel with
  | zero => simp [extract] at h
  | succ fu =>
    rw [extract] at h
    by_cases hc : collapsedR r = true
    · simp [hc, fresh, Except.ok.injEq, Prod.mk.injEq] at h
      obtain ⟨h1, h2, h3⟩ := h
      subst h3
      exact orderOK_of_collapsed _ r hc
    · rw [Bool.not_eq_true] at hc
      simp only [fresh, hc, Bool.false_eq_true, if_false] at h
      by_cases hcd : r.startNode = r.endNode ∧
          ((getN (F ++ [⟨.documentFragment, "", none, []⟩]) r.startNode).kind).isCharacterData = true
      · rw [if_pos hcd] at h
        simp only [bind, Except.bind, pure, Except.pure] at h
        repeat' split at h
        all_goals cases h
        all_goals exact orderOK_same_node F _ r hcd.1 hord
      · rw [if_neg hcd] at h
        simp only [bind, Except.bind, pure, Except.pure] at h
        repeat' split at h
        all_goals cases h
        all_goals exact Or.inl (position_refl _ _)

/-! Support: list index lemmas. -/
theorem idxOf_get? (l : List Nat) : ∀ (k c : Nat), l.Nodup → l.get? k = some c →
    l.indexOf c = k := by
  induction l with
  | nil => intro k c _ h; simp at h
  | cons a t ih =>
    intro k c hnd h
    cases k with
    | zero =>
      simp at h
      subst h
      simp [List.indexOf_cons_self]
    | succ k =>
      rw [List.get?_cons_succ] at h
      have hct : c ∈ t := List.get?_mem h
      have hac : a ≠ c := by
        intro he
        subst he
        exact (List.nodup_cons.mp hnd).1 hct
      rw [List.indexOf_cons_ne t hac, ih k c (List.nodup_cons.mp hnd).2 h]

theorem idxOf_erase_le (l : List Nat) (c x : Nat) (hne : c ≠ x) :
    (l.erase x).indexOf c ≤ l.indexOf c := by
  induction l with
  | nil => simp
  | cons a t ih =>
    by_cases hax : a = x
    · subst hax
      rw [List.erase_cons_head]
      rw [List.indexOf_cons_ne t (by exact fun he => hne he.symm)]
      omega
    · rw [List.erase_cons_tail]
      · by_cases hac : a = c
        · subst hac
          simp [List.indexOf_cons_self]
        · rw [List.indexOf_cons_ne _ hac, List.indexOf_cons_ne _ hac]
          omega
      · simp [hax]

theorem idxOf_le_erase (l : List Nat) (c x : Nat) (hne : c ≠ x) :
    l.indexOf c ≤ (l.erase x).indexOf c + 1 := by
  induction l with
  | nil => simp
  | cons a t ih =>
    by_cases hax : a = x
    · subst hax
      rw [List.erase_cons_head]
      rw [List.indexOf_cons_ne t (by exact fun he => hne he.symm)]
    · rw [List.erase_cons_tail]
      · by_cases hac : a = c
        · subst hac
          simp [List.indexOf_cons_self]
        · rw [List.indexOf_cons_ne _ hac, List.indexOf_cons_ne _ hac]
          omega
      · simp [hax]

theorem idxOf_erase_lt (l : List Nat) (a b x : Nat) (ha : a ≠ x) (hb : b ≠ x)
    (hab : l.indexOf a < l.indexOf b) (hbm : b ∈ l) :
    (l.erase x).indexOf a < (l.erase x).indexOf b := by
  induction l with
  | nil => simp at hbm
  | cons hd t ih =>
    by_cases hhx : hd = x
    · subst hhx
      rw [List.erase_cons_head]
      have hha : hd ≠ a := fun he => ha he.symm
      have hhb : hd ≠ b := fun he => hb he.symm
      rw [List.indexOf_cons_ne t hha, List.indexOf_cons_ne t hhb] at hab
      omega
    · rw [List.erase_cons_tail (by simp [hhx])]
      by_cases hha : hd = a
      · subst hha
        have hhb : hd ≠ b := by
          intro he
          rw [← he] at hab
          simp [List.indexOf_cons_self] at hab
        rw [List.indexOf_cons_self]
        rw [List.indexOf_cons_ne _ hhb]
        omega
      · by_cases hhb : hd = b
        · subst hhb
          rw [List.indexOf_cons_self] at hab
          omega
        · rw [List.indexOf_cons_ne _ hha, List.indexOf_cons_ne _ hhb] at hab
          rw [List.indexOf_cons_ne _ hha, List.indexOf_cons_ne _ hhb]
          have hbt : b ∈ t := by
            rcases List.mem_cons.mp hbm with h | h
            · exact absurd h.symm hhb
            · exact h
          have := ih (by omega) hbt
          omega

theorem idxOf_append_mem (l1 l2 : List Nat) (c : Nat) (h : c ∈ l1) :
    (l1 ++ l2).indexOf c = l1.indexOf c := by
  induction l1 with
  | nil => simp at h
  | cons a t ih =>
    by_cases hac : a = c
    · subst hac
      simp [List.indexOf_cons_self]
    · rw [List.cons_append, List.indexOf_cons_ne _ hac, List.indexOf_cons_ne _ hac]
      have hct : c ∈ t := by
        rcases List.mem_cons.mp h with h | h
        · exact absurd h.symm hac
        · exact h
      rw [ih hct]

theorem idxOf_append_not_mem (l1 l2 : List Nat) (x : Nat) (h : x ∉ l1) :
    (l1 ++ x :: l2).indexOf x = l1.length := by
  induction l1 with
  | nil => simp [List.indexOf_cons_self]
  | cons a t ih =>
    have hax : a ≠ x := fun he => h (he ▸ List.mem_cons_self a t)
    rw [List.cons_append, List.indexOf_cons_ne _ hax, List.length_cons,
      ih (fun hm => h (List.mem_cons_of_mem a hm))]

theorem idxOf_take_eq (l : List Nat) (c : Nat) :
    ∀ m, c ∈ l → l.indexOf c < m →
    c ∈ l.take m ∧ (l.take m).indexOf c = l.indexOf c := by
  induction l with
  | nil => intro m hc _; simp at hc
  | cons a t ih =>
    intro m hc h
    cases m with
    | zero => omega
    | succ m =>
      by_cases hac : a = c
      · subst hac
        simp [List.indexOf_cons_self, List.take_succ_cons]
      · rw [List.indexOf_cons_ne _ hac] at h
        have hct : c ∈ t := by
          rcases List.mem_cons.mp hc with h' | h'
          · exact absurd h'.symm hac
          · exact h'
        obtain ⟨hm, he⟩ := ih m hct (by omega)
        rw [List.take_succ_cons]
        refine ⟨List.mem_cons_of_mem a hm, ?_⟩
        rw [List.indexOf_cons_ne _ hac, List.indexOf_cons_ne _ hac, he]

/-! Support: arena update lemmas. -/
theorem length_setNode (F : Forest) (i : Nat) (n : DNode) :
    (setNode F i n).length = F.length := by
  simp [setNode]

theorem getN_setNode_self (F : Forest) (i : Nat) (n : DNode)
    (h : i < F.length) : getN (setNode F i n) i = n := by
  simp [setNode, getN, List.getD, List.get?_eq_getElem?,
    List.getElem?_set_eq_of_lt n h]

theorem getN_setNode_ne (F : Forest) (i : Nat) (n : DNode) (j : Nat)
    (h : j ≠ i) : getN (setNode F i n) j = getN F j := by
  simp [setNode, getN, List.getD, List.get?_eq_getElem?,
    List.getElem?_set_ne (by omega : i ≠ j)]

theorem getN_append_lt (F : Forest) (x : DNode) (j : Nat) (h : j < F.length) :
    getN (F ++ [x]) j = getN F j := by
  simp [getN, List.getD, List.get?_eq_getElem?, List.getElem?_append, h]

theorem getN_append_self (F : Forest) (x : DNode) :
    getN (F ++ [x]) F.length = x := by
  simp [getN, List.getD, List.get?_eq_getElem?, List.getElem?_concat_length]

/-! Support: chain lemmas. -/

theorem onChain_self (F : Forest) (x f : Nat) : onChain F x f x = true := by
  cases f <;> simp [onChain]

theorem onChain_parent (F : Forest) (x q : Nat) (hq : (getN F x).parent = some q) :
    ∀ f i, reachesRoot F f i = true → onChain F x f i = true →
    onChain F q f i = true := by
  intro f
  induction f with
  | zero =>
    intro i hr hc
    simp [reachesRoot, Option.isNone_iff_eq_none] at hr
    simp [onChain] at hc
    subst hc
    rw [hq] at hr
    cases hr
  | succ f ih =>
    intro i hr hc
    simp only [onChain, Bool.or_eq_true, beq_iff_eq] at hc ⊢
    rcases hc with hc | hc
    · subst hc
      rw [hq]
      right
      exact onChain_self F q f
    · simp only [reachesRoot] at hr
      cases hp : (getN F i).parent with
      | none => rw [hp] at hc; cases hc
      | some p =>
        rw [hp] at hc hr
        right
        exact ih p hr hc

theorem onChain_bound (F : Forest)
    (hpar : ∀ j, j < F.length → ∀ p, (getN F j).parent = some p → p < F.length) :
    ∀ f i x, i < F.length → F.length ≤ x → onChain F x f i = false := by
  intro f
  induction f with
  | zero =>
    intro i x hi hx
    simp [onChain]
    omega
  | succ f ih =>
    intro i x hi hx
    simp only [onChain, Bool.or_eq_false_iff, beq_eq_false_iff_ne]
    refine ⟨by omega, ?_⟩
    cases hp : (getN F i).parent with
    | none => rfl
    | some p => exact ih p x (hpar i hi p hp) hx

theorem onChain_congr (F G : Forest) (bad : List Nat)
    (hsame : ∀ j, j ∉ bad → (getN G j).parent = (getN F j).parent) :
    ∀ f i, (∀ y ∈ bad, onChain F y f i = false) →
    ∀ x, onChain G x f i = onChain F x f i := by
  intro f
  induction f with
  | zero => intro i _ x; rfl
  | succ f ih =>
    intro i havoid x
    have hib : i ∉ bad := by
      intro hib
      have := havoid i hib
      rw [onChain_self] at this
      cases this
    have hpeq := hsame i hib
    simp only [onChain]
    rw [hpeq]
    cases hp : (getN F i).parent with
    | none => rfl
    | some p =>
      have havoidp : ∀ y ∈ bad, onChain F y f p = false := by
        intro y hy
        have := havoid y hy
        simp only [onChain, hp, Bool.or_eq_false_iff] at this
        exact this.2
      show (i == x || onChain G x f p) = (i == x || onChain F x f p)
      rw [ih p havoidp x]

theorem reachesRoot_congr (F G : Forest) (bad : List Nat)
    (hsame : ∀ j, j ∉ bad → (getN G j).parent = (getN F j).parent) :
    ∀ f i, (∀ y ∈ bad, onChain F y f i = false) →
    reachesRoot F f i = true → reachesRoot G f i = true := by
  intro f
  induction f with
  | zero =>
    intro i havoid hr
    have hib : i ∉ bad := by
      intro hib
      have := havoid i hib
      rw [onChain_self] at this
      cases this
    simp only [reachesRoot] at hr ⊢
    rw [hsame i hib]
    exact hr
  | succ f ih =>
    intro i havoid hr
    have hib : i ∉ bad := by
      intro hib
      have := havoid i hib
      rw [onChain_self] at this
      cases this
    simp only [reachesRoot] at hr ⊢
    rw [hsame i hib]
    cases hp : (getN F i).parent with
    | none => rfl
    | some p =>
      rw [hp] at hr
      have havoidp : ∀ y ∈ bad, onChain F y f p = false := by
        intro y hy
        have := havoid y hy
        simp only [onChain, hp, Bool.or_eq_false_iff] at this
        exact this.2
      exact ih p havoidp hr

theorem onChain_ancestor (F : Forest) (x : Nat) :
    ∀ f i, onChain F x f i = true → i ≠ x →
    isAncestorOfAux F x (f + 1) i = true := by
  intro f
  induction f with
  | zero =>
    intro i hc hne
    simp [onChain] at hc
    exact absurd hc hne
  | succ f ih =>
    intro i hc hne
    simp only [onChain, Bool.or_eq_true, beq_iff_eq] at hc
    rcases hc with hc | hc
    · exact absurd hc hne
    · cases hp : (getN F i).parent with
      | none => rw [hp] at hc; cases hc
      | some p =>
        rw [hp] at hc
        simp only [isAncestorOfAux, hp, Bool.or_eq_true, beq_iff_eq]
        by_cases hpx : p = x
        · left; exact hpx
        · right; exact ih p hc hpx

theorem isAncestorOfAux_mono (F : Forest) (x : Nat) :
    ∀ f g i, f ≤ g → isAncestorOfAux F x f i = true →
    isAncestorOfAux F x g i = true := by
  intro f
  induction f with
  | zero => intro g i _ h; simp [isAncestorOfAux] at h
  | succ f ih =>
    intro g i hfg h
    cases g with
    | zero => omega
    | succ g =>
      cases hp : (getN F i).parent with
      | none =>
        simp only [isAncestorOfAux, hp] at h
        cases h
      | some p =>
        simp only [isAncestorOfAux, hp, Bool.or_eq_true] at h ⊢
        rcases h with h | h
        · left; exact h
        · right; exact ih g p (by omega) h

theorem not_ancestor_not_onChain (F : Forest) (x i f : Nat)
    (hf : f + 1 ≤ F.length) (h : isAncestorOf F i x true = false) :
    onChain F x f i = false := by
  by_contra hcon
  rw [Bool.not_eq_false] at hcon
  unfold isAncestorOf at h
  simp only [Bool.or_eq_false_iff, Bool.and_eq_false_iff] at h
  by_cases hix : i = x
  · subst hix
    simp at h
  · have haux := onChain_ancestor F x f i hcon hix
    have := isAncestorOfAux_mono F x (f + 1) F.length i hf haux
    rw [this] at h
    exact absurd h.2 (by simp)

/-! Support: path stability and the child-parent comparison. -/
theorem pathAux_stable (F : Forest) :
    ∀ f i, reachesRoot F f i = true →
    ∀ g1 g2, f < g1 → f < g2 → pathAux F g1 i = pathAux F g2 i := by
  intro f
  induction f with
  | zero =>
    intro i hr g1 g2 h1 h2
    simp [reachesRoot, Option.isNone_iff_eq_none] at hr
    cases g1 with
    | zero => omega
    | succ g1 =>
      cases g2 with
      | zero => omega
      | succ g2 => simp [pathAux, hr]
  | succ f ih =>
    intro i hr g1 g2 h1 h2
    simp only [reachesRoot] at hr
    cases g1 with
    | zero => omega
    | succ g1 =>
      cases g2 with
      | zero => omega
      | succ g2 =>
        cases hp : (getN F i).parent with
        | none => simp [pathAux, hp]
        | some p =>
          rw [hp] at hr
          simp only [pathAux, hp]
          rw [ih p hr g1 g2 (by omega) (by omega)]

theorem position_child_lt (F : Forest) (S P k m f : Nat)
    (hpar : (getN F S).parent = some P)
    (hr : reachesRoot F f P = true)
    (hf : f + 1 < F.length)
    (hidx : idx F S < m) :
    position F (S, k) (P, m) = .Before := by
  have hlen : F.length = (F.length - 1) + 1 := by omega
  have hpath : nodePath F S = nodePath F P ++ [idx F S] := by
    unfold nodePath
    conv_lhs => rw [hlen]
    simp only [pathAux, hpar]
    rw [pathAux_stable F f P hr (F.length - 1) F.length (by omega) (by omega)]
  show lexCompare (nodePath F S ++ [k]) (nodePath F P ++ [m]) = .Before
  rw [hpath, List.append_assoc, lexCompare_append_left]
  simp [lexCompare, hidx]

/-! Support: well-formedness of a forest. -/

theorem WF.parentRange {F : Forest} (hWF : WF F) :
    ∀ j, j < F.length → ∀ p, (getN F j).parent = some p → p < F.length :=
  fun j hj p hp => (hWF.parentMem j hj p hp).1

/-! Support: effect lemmas for the mutation primitives. -/
theorem idx_eq (G : Forest) (c p : Nat) (h : (getN G c).parent = some p) :
    idx G c = ((getN G p).children).indexOf c := by
  unfold idx
  rw [h]

theorem setNode_eq_of_ge (F : Forest) (i : Nat) (x : DNode)
    (h : F.length ≤ i) : setNode F i x = F := by
  simp [setNode, List.set_eq_of_length_le h]

theorem getN_setNode (F : Forest) (i : Nat) (x : DNode) (j : Nat) :
    getN (setNode F i x) j = if j = i ∧ i < F.length then x else getN F j := by
  by_cases h1 : j = i
  · subst h1
    by_cases h2 : j < F.length
    · simp [getN_setNode_self F j x h2, h2]
    · rw [setNode_eq_of_ge F j x (by omega)]
      simp [h2]
  · simp [getN_setNode_ne F i x j h1, h1]

theorem length_setChildren (F : Forest) (q : Nat) (l : List Nat) :
    (setChildren F q l).length = F.length := by
  simp [setChildren, length_setNode]

theorem length_setParent (F : Forest) (n : Nat) (p : Option Nat) :
    (setParent F n p).length = F.length := by
  simp [setParent, length_setNode]

theorem length_setData (F : Forest) (i : Nat) (d : String) :
    (setData F i d).length = F.length := by
  simp [setData, length_setNode]

theorem getN_setChildren (F : Forest) (q : Nat) (l : List Nat) (j : Nat) :
    getN (setChildren F q l) j =
      if j = q ∧ q < F.length then { getN F q with children := l }
      else getN F j := by
  unfold setChildren
  rw [getN_setNode]

theorem getN_setParent (F : Forest) (n : Nat) (p : Option Nat) (j : Nat) :
    getN (setParent F n p) j =
      if j = n ∧ n < F.length then { getN F n with parent := p }
      else getN F j := by
  unfold setParent
  rw [getN_setNode]

theorem getN_setData (F : Forest) (i : Nat) (d : String) (j : Nat) :
    getN (setData F i d) j =
      if j = i ∧ i < F.length then { getN F i with data := d }
      else getN F j := by
  unfold setData
  rw [getN_setNode]

theorem length_removeFromParent (F : Forest) (n q : Nat) :
    (removeFromParent F n q).length = F.length := by
  simp [removeFromParent, length_setParent, length_setChildren]

theorem remove_getN (F : Forest) (n q j : Nat) :
    getN (removeFromParent F n q) j =
      { getN F j with
        parent := if j = n ∧ n < F.length then none else (getN F j).parent,
        children := if j = q ∧ q < F.length then ((getN F q).children).erase n
                    else (getN F j).children } := by
  show getN (setParent (setChildren F q (((getN F q).children).erase n)) n none) j = _
  simp only [getN_setParent, getN_setChildren, length_setChildren]
  split_ifs <;> simp_all

theorem remove_kind (F : Forest) (n q j : Nat) :
    (getN (removeFromParent F n q) j).kind = (getN F j).kind := by
  rw [remove_getN]

theorem remove_data (F : Forest) (n q j : Nat) :
    (getN (removeFromParent F n q) j).data = (getN F j).data := by
  rw [remove_getN]

theorem remove_parent (F : Forest) (n q j : Nat) :
    (getN (removeFromParent F n q) j).parent =
      if j = n ∧ n < F.length then none else (getN F j).parent := by
  rw [remove_getN]

theorem remove_children (F : Forest) (n q j : Nat) :
    (getN (removeFromParent F n q) j).children =
      if j = q ∧ q < F.length then ((getN F q).children).erase n
      else (getN F j).children := by
  rw [remove_getN]

theorem remove_parent_ne (F : Forest) (n q j : Nat) (hn : j ≠ n) :
    (getN (removeFromParent F n q) j).parent = (getN F j).parent := by
  rw [remove_parent]
  simp [hn]

theorem remove_children_ne (F : Forest) (n q j : Nat) (hq : j ≠ q) :
    (getN (removeFromParent F n q) j).children = (getN F j).children := by
  rw [remove_children]
  simp [hq]

theorem setParent_children (G : Forest) (n : Nat) (po : Option Nat) (j : Nat) :
    (getN (setParent G n po) j).children = (getN G j).children := by
  rw [getN_setParent]
  split_ifs with h
  · rw [h.1]
  · rfl

theorem setParent_kind (G : Forest) (n : Nat) (po : Option Nat) (j : Nat) :
    (getN (setParent G n po) j).kind = (getN G j).kind := by
  rw [getN_setParent]
  split_ifs with h
  · rw [h.1]
  · rfl

theorem setParent_data (G : Forest) (n : Nat) (po : Option Nat) (j : Nat) :
    (getN (setParent G n po) j).data = (getN G j).data := by
  rw [getN_setParent]
  split_ifs with h
  · rw [h.1]
  · rfl

theorem setParent_parent (G : Forest) (n : Nat) (po : Option Nat) (j : Nat) :
    (getN (setParent G n po) j).parent =
      if j = n ∧ n < G.length then po else (getN G j).parent := by
  rw [getN_setParent]
  split_ifs with h
  · rfl
  · rfl

theorem setChildren_parent (G : Forest) (q : Nat) (l : List Nat) (j : Nat) :
    (getN (setChildren G q l) j).parent = (getN G j).parent := by
  rw [getN_setChildren]
  split_ifs with h
  · rw [h.1]
  · rfl

theorem setChildren_kind (G : Forest) (q : Nat) (l : List Nat) (j : Nat) :
    (getN (setChildren G q l) j).kind = (getN G j).kind := by
  rw [getN_setChildren]
  split_ifs with h
  · rw [h.1]
  · rfl

theorem setChildren_data (G : Forest) (q : Nat) (l : List Nat) (j : Nat) :
    (getN (setChildren G q l) j).data = (getN G j).data := by
  rw [getN_setChildren]
  split_ifs with h
  · rw [h.1]
  · rfl

theorem setChildren_children (G : Forest) (q : Nat) (l : List Nat) (j : Nat) :
    (getN (setChildren G q l) j).children =
      if j = q ∧ q < G.length then l else (getN G j).children := by
  rw [getN_setChildren]
  split_ifs with h
  · rfl
  · rfl

theorem setData_parent (G : Forest) (i : Nat) (d : String) (j : Nat) :
    (getN (setData G i d) j).parent = (getN G j).parent := by
  rw [getN_setData]
  split_ifs with h
  · rw [h.1]
  · rfl

theorem setData_kind (G : Forest) (i : Nat) (d : String) (j : Nat) :
    (getN (setData G i d) j).kind = (getN G j).kind := by
  rw [getN_setData]
  split_ifs with h
  · rw [h.1]
  · rfl

theorem setData_children (G : Forest) (i : Nat) (d : String) (j : Nat) :
    (getN (setData G i d) j).children = (getN G j).children := by
  rw [getN_setData]
  split_ifs with h
  · rw [h.1]
  · rfl

theorem replaceData_parent (G : Forest) (i off cnt : Nat) (d : String) (j : Nat) :
    (getN (replaceData G i off cnt d) j).parent = (getN G j).parent := by
  unfold replaceData
  rw [setData_parent]

theorem replaceData_kind (G : Forest) (i off cnt : Nat) (d : String) (j : Nat) :
    (getN (replaceData G i off cnt d) j).kind = (getN G j).kind := by
  unfold replaceData
  rw [setData_kind]

theorem replaceData_children (G : Forest) (i off cnt : Nat) (d : String) (j : Nat) :
    (getN (replaceData G i off cnt d) j).children = (getN G j).children := by
  unfold replaceData
  rw [setData_children]

theorem length_replaceData (G : Forest) (i off cnt : Nat) (d : String) :
    (replaceData G i off cnt d).length = G.length := by
  unfold replaceData
  rw [length_setData]

theorem detach_of_parent_none (G : Forest) (n : Nat)
    (h : (getN G n).parent = none) : detach G n = G := by
  unfold detach
  rw [h]

theorem insertNF_parent (G : Forest) (n p : Nat) (ref : Option Nat) (j : Nat)
    (hfrag : ¬ (getN G n).kind = .documentFragment)
    (hdet : (getN G n).parent = none) :
    (getN (insertIntoParent G n p ref) j).parent =
      if j = n ∧ n < G.length then some p else (getN G j).parent := by
  unfold insertIntoParent
  rw [if_neg hfrag, detach_of_parent_none G n hdet, setChildren_parent,
    setParent_parent]

theorem insertNF_children (G : Forest) (n p : Nat) (ref : Option Nat) (j : Nat)
    (hfrag : ¬ (getN G n).kind = .documentFragment)
    (hdet : (getN G n).parent = none) (hp : p < G.length) :
    (getN (insertIntoParent G n p ref) j).children =
      if j = p then insertBeforeL ((getN G p).children) ref [n]
      else (getN G j).children := by
  unfold insertIntoParent
  rw [if_neg hfrag, detach_of_parent_none G n hdet, setChildren_children]
  simp only [length_setParent]
  by_cases hjp : j = p
  · rw [if_pos ⟨hjp, hp⟩, if_pos hjp, setParent_children]
  · rw [if_neg (fun hx => hjp hx.1), if_neg hjp, setParent_children]

theorem insertNF_kind (G : Forest) (n p : Nat) (ref : Option Nat) (j : Nat)
    (hfrag : ¬ (getN G n).kind = .documentFragment)
    (hdet : (getN G n).parent = none) :
    (getN (insertIntoParent G n p ref) j).kind = (getN G j).kind := by
  unfold insertIntoParent
  rw [if_neg hfrag, detach_of_parent_none G n hdet, setChildren_kind,
    setParent_kind]

theorem length_insertNF (G : Forest) (n p : Nat) (ref : Option Nat)
    (hfrag : ¬ (getN G n).kind = .documentFragment)
    (hdet : (getN G n).parent = none) :
    (insertIntoParent G n p ref).length = G.length := by
  unfold insertIntoParent
  rw [if_neg hfrag, detach_of_parent_none G n hdet, length_setChildren,
    length_setParent]

theorem foldParent_getN (p : Nat) (xs : List Nat) :
    ∀ (G : Forest) (j : Nat),
      getN (xs.foldl (fun acc c => setParent acc c (some p)) G) j =
        if j ∈ xs ∧ j < G.length then { getN G j with parent := some p }
        else getN G j := by
  induction xs with
  | nil => intro G j; simp
  | cons c t ih =>
    intro G j
    rw [List.foldl_cons, ih (setParent G c (some p)) j]
    simp only [length_setParent, getN_setParent]
    by_cases hjt : j ∈ t ∧ j < G.length
    · rw [if_pos hjt]
      by_cases hjc : j = c ∧ c < G.length
      · rw [if_pos hjc, if_pos ⟨List.mem_cons_of_mem c hjt.1, hjt.2⟩]
        rw [hjc.1]
      · rw [if_neg hjc, if_pos ⟨List.mem_cons_of_mem c hjt.1, hjt.2⟩]
    · rw [if_neg hjt]
      by_cases hjc : j = c ∧ c < G.length
      · rw [if_pos hjc, if_pos ⟨by rw [hjc.1]; exact List.mem_cons_self c t, hjc.1 ▸ hjc.2⟩]
        rw [hjc.1]
      · rw [if_neg hjc]
        rw [if_neg]
        intro hx
        rcases List.mem_cons.mp hx.1 with h | h
        · exact hjc ⟨h, h ▸ hx.2⟩
        · exact hjt ⟨h, hx.2⟩

theorem length_foldParent (p : Nat) (xs : List Nat) :
    ∀ G : Forest, (xs.foldl (fun acc c => setParent acc c (some p)) G).length =
      G.length := by
  induction xs with
  | nil => intro G; rfl
  | cons c t ih =>
    intro G
    rw [List.foldl_cons, ih (setParent G c (some p)), length_setParent]

theorem foldParent_children (p : Nat) (xs : List Nat) (G : Forest) (j : Nat) :
    (getN (xs.foldl (fun acc c => setParent acc c (some p)) G) j).children =
      (getN G j).children := by
  rw [foldParent_getN]
  split_ifs with h
  · rfl
  · rfl

theorem foldParent_kind (p : Nat) (xs : List Nat) (G : Forest) (j : Nat) :
    (getN (xs.foldl (fun acc c => setParent acc c (some p)) G) j).kind =
      (getN G j).kind := by
  rw [foldParent_getN]
  split_ifs with h
  · rfl
  · rfl

theorem foldParent_parent (p : Nat) (xs : List Nat) (G : Forest) (j : Nat) :
    (getN (xs.foldl (fun acc c => setParent acc c (some p)) G) j).parent =
      if j ∈ xs ∧ j < G.length then some p else (getN G j).parent := by
  rw [foldParent_getN]
  split_ifs with h
  · rfl
  · rfl

theorem insertFrag_parent (G : Forest) (n p : Nat) (ref : Option Nat) (j : Nat)
    (hfrag : (getN G n).kind = .documentFragment) :
    (getN (insertIntoParent G n p ref) j).parent =
      if j ∈ (getN G n).children ∧ j < G.length then some p
      else (getN G j).parent := by
  unfold insertIntoParent
  rw [if_pos hfrag, setChildren_parent, foldParent_parent]
  simp only [length_setChildren, setChildren_children]
  by_cases hc : j ∈ (getN G n).children ∧ j < G.length
  · rw [if_pos hc, if_pos hc]
  · rw [if_neg hc, if_neg hc, setChildren_parent]

theorem insertFrag_children (G : Forest) (n p : Nat) (ref : Option Nat) (j : Nat)
    (hfrag : (getN G n).kind = .documentFragment) (hnp : n ≠ p)
    (hp : p < G.length) (hn : n < G.length) :
    (getN (insertIntoParent G n p ref) j).children =
      if j = p then insertBeforeL ((getN G p).children) ref ((getN G n).children)
      else if j = n then []
      else (getN G j).children := by
  unfold insertIntoParent
  rw [if_pos hfrag, setChildren_children]
  simp only [length_foldParent, length_setChildren, foldParent_children]
  by_cases hjp : j = p
  · rw [if_pos ⟨hjp, hp⟩, if_pos hjp, setChildren_children,
      if_neg (fun hx => hnp hx.1.symm)]
  · rw [if_neg (fun hx => hjp hx.1), if_neg hjp, setChildren_children]
    by_cases hjn : j = n
    · rw [if_pos ⟨hjn, hn⟩, if_pos hjn]
    · rw [if_neg (fun hx => hjn hx.1), if_neg hjn]

theorem insertFrag_kind (G : Forest) (n p : Nat) (ref : Option Nat) (j : Nat)
    (hfrag : (getN G n).kind = .documentFragment) :
    (getN (insertIntoParent G n p ref) j).kind = (getN G j).kind := by
  unfold insertIntoParent
  rw [if_pos hfrag, setChildren_kind, foldParent_kind, setChildren_kind]

theorem length_insertFrag (G : Forest) (n p : Nat) (ref : Option Nat)
    (hfrag : (getN G n).kind = .documentFragment) :
    (insertIntoParent G n p ref).length = G.length := by
  unfold insertIntoParent
  rw [if_pos hfrag, length_setChildren, length_foldParent, length_setChildren]

theorem insert_frame (F : Forest) (node : Nat) (r : LRange) (F' : Forest)
    (r2 : LRange) (hc : collapsedR r = false)
    (h : insertR F node r = .ok (F', r2)) : r2 = r := by
  unfold insertR at h
  simp only [hc, Bool.false_eq_true, if_false, bind, Except.bind, pure,
    Except.pure, throw, throwThe, MonadExceptOf.throw, Except.map] at h
  repeat' split at h
  all_goals cases h
  all_goals rfl

theorem orderOK_mk_same (F : Forest) (r : LRange) (m : Nat)
    (h : r.startOffset ≤ m) :
    orderOK F { r with endNode := r.startNode, endOffset := m } := by
  unfold orderOK LRange.startBp LRange.endBp
  simp only
  rw [position_same_node]
  rcases Nat.lt_or_ge r.startOffset m with hlt | hge
  · right
    rw [if_pos hlt]
  · have heq : r.startOffset = m := by omega
    left
    subst heq
    simp

theorem orderOK_mk_child (F : Forest) (r : LRange) (P m f : Nat)
    (hpar : (getN F r.startNode).parent = some P)
    (hr : reachesRoot F f P = true) (hf : f + 1 < F.length)
    (hidx : idx F r.startNode < m) :
    orderOK F { r with endNode := P, endOffset := m } := by
  right
  show position F (r.startNode, r.startOffset) (P, m) = .Before
  exact position_child_lt F r.startNode P r.startOffset m f hpar hr hf hidx

theorem nextSibling_eq (F : Forest) (i p : Nat) (hp : (getN F i).parent = some p) :
    nextSibling F i = ((getN F p).children).get? (idx F i + 1) := by
  unfold nextSibling
  rw [hp]

theorem nodeLength_container (F : Forest) (i : Nat)
    (h : (getN F i).kind = .document ∨ (getN F i).kind = .documentFragment ∨
      (getN F i).kind = .element) :
    nodeLength F i = ((getN F i).children).length := by
  rcases h with h | h | h <;>
    simp [nodeLength, h, NodeKind.isCharacterData]

theorem isAncestorOf_false_ne (F : Forest) (d a : Nat)
    (h : isAncestorOf F d a true = false) : d ≠ a := by
  intro he
  subst he
  unfold isAncestorOf at h
  simp at h

theorem ensure_none_facts (F : Forest) (n p : Nat) (ref : Option Nat)
    (h : ensurePreInsertionValidity F n p ref = none) :
    ((getN F p).kind = .document ∨ (getN F p).kind = .documentFragment ∨
      (getN F p).kind = .element) ∧
    isAncestorOf F p n true = false ∧ p ≠ n ∧
    insertableKind (getN F n).kind = true ∧
    (∀ c, ref = some c → (getN F c).parent = some p) := by
  unfold ensurePreInsertionValidity at h
  split_ifs at h with h1 h2 h3 h4 h5 h6
  push_neg at h1
  have hanc : isAncestorOf F p n true = false := by
    rw [← Bool.not_eq_true]
    exact h2
  refine ⟨h1, hanc, isAncestorOf_false_ne F p n hanc, h4, ?_⟩
  · intro c hc
    subst hc
    rw [Bool.not_eq_true] at h3
    simp at h3
    exact h3

theorem getN_ge (F : Forest) (j : Nat) (h : F.length ≤ j) : getN F j = default := by
  simp [getN, List.getD, List.get?_eq_getElem?, List.getElem?_eq_none h]

theorem getN_append_ne (F : Forest) (x : DNode) (j : Nat) (h : ¬ j = F.length) :
    getN (F ++ [x]) j = getN F j := by
  rcases Nat.lt_or_ge j F.length with hlt | hge
  · exact getN_append_lt F x j hlt
  · rw [getN_ge F j hge, getN_ge (F ++ [x]) j
      (by simp only [List.length_append, List.length_cons, List.length_nil]; omega)]

theorem nextSibling_append (F : Forest) (x : DNode) (t P : Nat)
    (ht : t < F.length) (hPlt : P < F.length)
    (hP : (getN F t).parent = some P) :
    nextSibling (F ++ [x]) t = nextSibling F t := by
  have h1 : (getN (F ++ [x]) t).parent = some P := by
    rw [getN_append_lt F x t ht]
    exact hP
  rw [nextSibling_eq _ t P h1, nextSibling_eq F t P hP,
    getN_append_lt F x P hPlt, idx_eq _ t P h1, idx_eq F t P hP,
    getN_append_lt F x P hPlt]

theorem onChain_congr_target (F G : Forest) (x : Nat)
    (hsame : ∀ j, ¬ j = x → (getN G j).parent = (getN F j).parent) :
    ∀ f i, onChain G x f i = onChain F x f i := by
  intro f
  induction f with
  | zero => intro i; rfl
  | succ f ih =>
    intro i
    by_cases hix : i = x
    · subst hix
      rw [onChain_self, onChain_self]
    · simp only [onChain]
      rw [hsame i hix]
      cases hp : (getN F i).parent with
      | none => rfl
      | some p =>
        show (i == x || onChain G x f p) = (i == x || onChain F x f p)
        rw [ih p]

theorem mem_insertBefore (l : List Nat) (r : Option Nat) (xs : List Nat) (a : Nat)
    (h : a ∈ l) : a ∈ insertBeforeL l r xs := by
  unfold insertBeforeL
  cases r with
  | none => exact List.mem_append_left xs h
  | some c =>
    have h2 : a ∈ l.take (l.indexOf c) ++ l.drop (l.indexOf c) := by
      rw [List.take_append_drop]
      exact h
    rcases List.mem_append.mp h2 with h1 | h1
    · exact List.mem_append_left _ (List.mem_append_left _ h1)
    · exact List.mem_append_right _ h1

theorem mem_insertBefore_self (l : List Nat) (r : Option Nat) (L : Nat) :
    L ∈ insertBeforeL l r [L] := by
  unfold insertBeforeL
  cases r with
  | none => exact List.mem_append_right l (List.mem_singleton.mpr rfl)
  | some c =>
    exact List.mem_append_left _
      (List.mem_append_right _ (List.mem_singleton.mpr rfl))

theorem idxOf_insertBefore_lt (l : List Nat) (S R : Nat) (xs : List Nat)
    (hmem : S ∈ l) (hAB : l.indexOf S < l.indexOf R) :
    (insertBeforeL l (some R) xs).indexOf S = l.indexOf S := by
  unfold insertBeforeL
  obtain ⟨hmt, het⟩ := idxOf_take_eq l S (l.indexOf R) hmem hAB
  rw [idxOf_append_mem _ _ S (List.mem_append_left _ hmt),
    idxOf_append_mem _ _ S hmt, het]

theorem idxOf_insertBefore_none (l : List Nat) (S : Nat) (xs : List Nat)
    (hmem : S ∈ l) :
    (insertBeforeL l none xs).indexOf S = l.indexOf S := by
  unfold insertBeforeL
  rw [idxOf_append_mem _ _ S hmem]

theorem idxOf_insertBefore_new (l : List Nat) (R L : Nat) (hL : L ∉ l) :
    (insertBeforeL l (some R) [L]).indexOf L = l.indexOf R := by
  unfold insertBeforeL
  simp only []
  rw [List.append_assoc, List.singleton_append,
    idxOf_append_not_mem _ _ L (fun hm => hL (List.mem_of_mem_take hm)),
    List.length_take]
  exact Nat.min_eq_left (List.indexOf_le_length)

theorem idxOf_insertBefore_new_none (l : List Nat) (L : Nat) (hL : L ∉ l) :
    (insertBeforeL l none [L]).indexOf L = l.length := by
  unfold insertBeforeL
  have h2 : l ++ [L] = l ++ L :: [] := rfl
  rw [h2, idxOf_append_not_mem _ _ L hL]

theorem splitText_facts (F : Forest) (t off P : Nat) (F1 : Forest) (s : Nat)
    (ht : t < F.length) (hPlt : P < F.length)
    (hofle : off ≤ nodeLength F t) (hP : (getN F t).parent = some P)
    (hsp : splitText F t off = .ok (F1, s)) :
    s = F.length ∧ F1.length = F.length + 1 ∧
    (∀ j, ¬ j = F.length → (getN F1 j).parent = (getN F j).parent) ∧
    (getN F1 F.length).parent = some P ∧
    (∀ j, ¬ j = F.length → (getN F1 j).kind = (getN F j).kind) ∧
    (getN F1 P).children =
      insertBeforeL ((getN F P).children) (nextSibling F t) [F.length] ∧
    (∀ j, ¬ j = P → (getN F1 j).children = (getN F j).children) := by
  unfold splitText at hsp
  rw [if_neg (by omega)] at hsp
  simp only [fresh] at hsp
  rw [getN_append_lt F _ t ht, hP] at hsp
  simp only [Except.ok.injEq, Prod.mk.injEq] at hsp
  obtain ⟨hF1, hs⟩ := hsp
  subst hF1
  subst hs
  refine ⟨rfl, ?_, ?_, ?_, ?_, ?_, ?_⟩
  · rw [length_replaceData, length_setChildren, length_setParent,
      List.length_append, List.length_cons, List.length_nil]
  · intro j hj
    rw [replaceData_parent, setChildren_parent, setParent_parent,
      if_neg (fun hx => hj hx.1), getN_append_ne F _ j hj]
  · rw [replaceData_parent, setChildren_parent, setParent_parent,
      if_pos ⟨rfl, by
        simp only [List.length_append, List.length_cons, List.length_nil]
        omega⟩]
  · intro j hj
    rw [replaceData_kind, setChildren_kind, setParent_kind,
      getN_append_ne F _ j hj]
  · rw [replaceData_children, setChildren_children,
      if_pos ⟨rfl, by
        simp only [length_setParent, List.length_append, List.length_cons,
          List.length_nil]
        omega⟩,
      getN_append_lt F _ P hPlt, nextSibling_append F _ t P ht hPlt hP]
  · intro j hj
    rw [replaceData_children, setChildren_children, if_neg (fun hx => hj hx.1),
      setParent_children]
    by_cases hjL : j = F.length
    · subst hjL
      rw [getN_append_self, getN_ge F _ (le_refl _)]
      rfl
    · rw [getN_append_ne F _ j hjL]

theorem reachesRoot_no_selfloop (F : Forest) (i : Nat) :
    ∀ f, (getN F i).parent = some i → reachesRoot F f i = true → False := by
  intro f
  induction f with
  | zero =>
    intro hp hr
    simp only [reachesRoot, hp, Option.isNone_some] at hr
    cases hr
  | succ f ih =>
    intro hp hr
    simp only [reachesRoot, hp] at hr
    exact ih hp hr

theorem insert_collapsed_ok (F : Forest) (node : Nat) (r : LRange)
    (F' : Forest) (r2 : LRange) (hWF : WF F)
    (hS : r.startNode < F.length) (hnode : node < F.length)
    (hk : r.startOffset ≤ nodeLength F r.startNode)
    (hcol : collapsedR r = true)
    (h : insertR F node r = .ok (F', r2)) : orderOK F' r2 := by
  unfold insertR at h
  simp only [bind, Except.bind, pure, Except.pure, throw, throwThe,
    MonadExceptOf.throw, Except.map, hcol, eq_self_iff_true, if_true] at h
  split at h
  · cases h
  rename_i hguard
  push_neg at hguard
  obtain ⟨hpi, hcm, htp, hsn⟩ := hguard
  by_cases htext : (getN F r.startNode).kind = .text
  · -- CASE A: the start node is a text node; the engine splits it first.
    simp only [htext, eq_self_iff_true, if_true] at h
    have hPex := htp htext
    cases hP : (getN F r.startNode).parent with
    | none => exact absurd hP hPex
    | some P =>
      rw [hP] at h
      simp only [] at h
      have hPlt : P < F.length := hWF.parentRange r.startNode hS P hP
      have hSP : ¬ r.startNode = P := by
        intro he
        exact reachesRoot_no_selfloop F r.startNode (F.length - 1)
          (by rw [hP, he]) (hWF.chainOK r.startNode hS)
      cases hens : ensurePreInsertionValidity F node P (some r.startNode) with
      | some e => rw [hens] at h; cases h
      | none =>
        rw [hens] at h
        simp only [] at h
        cases hsp : splitText F r.startNode r.startOffset with
        | error e => rw [hsp] at h; cases h
        | ok pr =>
          rw [hsp] at h
          obtain ⟨F1v, sv⟩ := pr
          simp only [] at h
          obtain ⟨hsv, hlen1, hpar1, hparNew, hkind1, hchP1, hch1⟩ :=
            splitText_facts F r.startNode r.startOffset P F1v sv hS hPlt hk hP hsp
          subst hsv
          have hrefne : ¬ (some (F.length) = some node) := by
            intro hx
            have h2 := Option.some_injective Nat hx
            omega
          rw [if_neg hrefne] at h
          rw [hpar1 node (by omega)] at h
          have hSmem : r.startNode ∈ (getN F P).children :=
            (hWF.parentMem r.startNode hS P hP).2
          have hnd : ((getN F P).children).Nodup := hWF.childNodup P hPlt
          have hLnm : F.length ∉ (getN F P).children := by
            intro hm
            have := (hWF.childParent P hPlt (F.length) hm).1
            omega
          rw [nextSibling_eq F r.startNode P hP, idx_eq F r.startNode P hP] at hchP1
          have hidx1 : ((getN F1v P).children).indexOf r.startNode =
                ((getN F P).children).indexOf r.startNode ∧
              ((getN F1v P).children).indexOf (F.length) =
                ((getN F P).children).indexOf r.startNode + 1 := by
            cases hnss : ((getN F P).children).get?
                (((getN F P).children).indexOf r.startNode + 1) with
            | none =>
              rw [hnss] at hchP1
              rw [hchP1]
              constructor
              · exact idxOf_insertBefore_none _ _ _ hSmem
              · rw [idxOf_insertBefore_new_none _ _ hLnm]
                have hlt := List.indexOf_lt_length.mpr hSmem
                have hge := List.get?_eq_none.mp hnss
                omega
            | some c2 =>
              rw [hnss] at hchP1
              rw [hchP1]
              have hidxc2 : ((getN F P).children).indexOf c2 =
                  ((getN F P).children).indexOf r.startNode + 1 :=
                idxOf_get? _ _ _ hnd hnss
              constructor
              · apply idxOf_insertBefore_lt _ _ _ _ hSmem
                omega
              · rw [idxOf_insertBefore_new _ _ _ hLnm, hidxc2]
          obtain ⟨hin1S, hin1L⟩ := hidx1
          have hS1mem : r.startNode ∈ (getN F1v P).children := by
            rw [hchP1]
            exact mem_insertBefore _ _ _ _ hSmem
          have hL1mem : F.length ∈ (getN F1v P).children := by
            rw [hchP1]
            exact mem_insertBefore_self _ _ _
          have hrrP : reachesRoot F (F.length - 1) P = true := hWF.chainOK P hPlt
          have hrr1 : reachesRoot F1v (F.length - 1) P = true := by
            apply reachesRoot_congr F F1v [F.length]
              (fun j hj => hpar1 j (by simpa using hj)) (F.length - 1) P
            · intro y hy
              rw [List.mem_singleton] at hy
              subst hy
              exact onChain_bound F hWF.parentRange (F.length - 1) P (F.length)
                hPlt (le_refl _)
            · exact hrrP
          cases hq : (getN F node).parent with
          | none =>
            rw [hq] at h
            simp only [] at h
            rw [hkind1 node (by omega)] at h
            rw [idx_eq F1v (F.length) P hparNew] at h
            by_cases hfr : (getN F node).kind = .documentFragment
            · rw [if_pos hfr] at h
              cases hpre : preInsert F1v node P (some (F.length)) with
              | error e => rw [hpre] at h; cases h
              | ok v =>
                rw [hpre] at h
                unfold preInsert at hpre
                cases hens2 : ensurePreInsertionValidity F1v node P (some (F.length)) with
                | some e => rw [hens2] at hpre; cases hpre
                | none =>
                  rw [hens2] at hpre
                  simp only [] at hpre
                  rw [if_neg hrefne] at hpre
                  simp only [Except.ok.injEq] at hpre
                  subst hpre
                  simp only [Except.ok.injEq, Prod.mk.injEq] at h
                  obtain ⟨hF3, hr2⟩ := h
                  subst hF3
                  subst hr2
                  obtain ⟨-, hanc2, hPn, -, -⟩ :=
                    ensure_none_facts F1v node P (some (F.length)) hens2
                  have hnP : ¬ node = P := fun he => hPn he.symm
                  have hfr1 : (getN F1v node).kind = .documentFragment := by
                    rw [hkind1 node (by omega)]
                    exact hfr
                  have hoc1 : onChain F1v node (F.length - 1) P = false :=
                    not_ancestor_not_onChain F1v node P (F.length - 1)
                      (by rw [hlen1]; omega) hanc2
                  have hxs : (getN F1v node).children = (getN F node).children :=
                    hch1 node hnP
                  have hbadxs : ∀ y ∈ (getN F1v node).children,
                      onChain F1v y (F.length - 1) P = false := by
                    intro y hy
                    rw [hxs] at hy
                    have hyp := (hWF.childParent node hnode y hy).2
                    have hylt := (hWF.childParent node hnode y hy).1
                    have hyp1 : (getN F1v y).parent = some node := by
                      rw [hpar1 y (by omega)]
                      exact hyp
                    by_contra hcon
                    rw [Bool.not_eq_false] at hcon
                    have h2 := onChain_parent F1v y node hyp1 (F.length - 1) P hrr1 hcon
                    rw [hoc1] at h2
                    cases h2
                  have hrr3 : reachesRoot (insertIntoParent F1v node P (some (F.length)))
                      (F.length - 1) P = true := by
                    apply reachesRoot_congr F1v _ ((getN F1v node).children)
                      ?_ (F.length - 1) P hbadxs hrr1
                    intro j hj
                    rw [insertFrag_parent F1v node P _ j hfr1,
                      if_neg (fun hx => hj hx.1)]
                  have hpar3 : (getN (insertIntoParent F1v node P (some (F.length)))
                      r.startNode).parent = some P := by
                    rw [insertFrag_parent F1v node P _ r.startNode hfr1]
                    split_ifs with hx
                    · rfl
                    · rw [hpar1 r.startNode (by omega)]
                      exact hP
                  apply orderOK_mk_child _ _ P _ (F.length - 1) hpar3 hrr3 ?_ ?_
                  · rw [length_insertFrag _ _ _ _ hfr1, hlen1]
                    omega
                  · rw [idx_eq _ r.startNode P hpar3]
                    rw [insertFrag_children F1v node P _ P hfr1 hnP
                      (by rw [hlen1]; omega) (by rw [hlen1]; omega), if_pos rfl]
                    rw [idxOf_insertBefore_lt _ _ _ _ hS1mem
                      (by rw [hin1S, hin1L]; omega)]
                    rw [hin1S, hin1L]
                    omega
            · rw [if_neg hfr] at h
              cases hpre : preInsert F1v node P (some (F.length)) with
              | error e => rw [hpre] at h; cases h
              | ok v =>
                rw [hpre] at h
                unfold preInsert at hpre
                cases hens2 : ensurePreInsertionValidity F1v node P (some (F.length)) with
                | some e => rw [hens2] at hpre; cases hpre
                | none =>
                  rw [hens2] at hpre
                  simp only [] at hpre
                  rw [if_neg hrefne] at hpre
                  simp only [Except.ok.injEq] at hpre
                  subst hpre
                  simp only [Except.ok.injEq, Prod.mk.injEq] at h
                  obtain ⟨hF3, hr2⟩ := h
                  subst hF3
                  subst hr2
                  obtain ⟨-, hanc2, hPn, -, -⟩ :=
                    ensure_none_facts F1v node P (some (F.length)) hens2
                  have hfr1 : ¬ (getN F1v node).kind = .documentFragment := by
                    rw [hkind1 node (by omega)]
                    exact hfr
                  have hdet1 : (getN F1v node).parent = none := by
                    rw [hpar1 node (by omega)]
                    exact hq
                  have hoc1 : onChain F1v node (F.length - 1) P = false :=
                    not_ancestor_not_onChain F1v node P (F.length - 1)
                      (by rw [hlen1]; omega) hanc2
                  have hrr3 : reachesRoot (insertIntoParent F1v node P (some (F.length)))
                      (F.length - 1) P = true := by
                    apply reachesRoot_congr F1v _ [node] ?_ (F.length - 1) P ?_ hrr1
                    · intro j hj
                      rw [insertNF_parent F1v node P _ j hfr1 hdet1,
                        if_neg (fun hx => (by simpa using hj : ¬ j = node) hx.1)]
                    · intro y hy
                      rw [List.mem_singleton] at hy
                      subst hy
                      exact hoc1
                  have hpar3 : (getN (insertIntoParent F1v node P (some (F.length)))
                      r.startNode).parent = some P := by
                    rw [insertNF_parent F1v node P _ r.startNode hfr1 hdet1,
                      if_neg (fun hx => hsn hx.1)]
                    rw [hpar1 r.startNode (by omega)]
                    exact hP
                  apply orderOK_mk_child _ _ P _ (F.length - 1) hpar3 hrr3 ?_ ?_
                  · rw [length_insertNF _ _ _ _ hfr1 hdet1, hlen1]
                    omega
                  · rw [idx_eq _ r.startNode P hpar3]
                    rw [insertNF_children F1v node P _ P hfr1 hdet1
                      (by rw [hlen1]; omega), if_pos rfl]
                    rw [idxOf_insertBefore_lt _ _ _ _ hS1mem
                      (by rw [hin1S, hin1L]; omega)]
                    rw [hin1S, hin1L]
                    omega
          | some q =>
            rw [hq] at h
            simp only [] at h
            have hql := hWF.parentMem node hnode q hq
            have hfrn : ¬ (getN F node).kind = .documentFragment := by
              intro hf
              rw [hWF.fragmentRoot node hnode hf] at hq
              cases hq
            rw [remove_kind, hkind1 node (by omega), if_neg hfrn] at h
            have hparL2 : (getN (removeFromParent F1v node q) (F.length)).parent =
                some P := by
              rw [remove_parent_ne F1v node q (F.length) (by omega)]
              exact hparNew
            rw [idx_eq _ (F.length) P hparL2] at h
            have hqlt1 : q < F1v.length := by
              rw [hlen1]
              omega
            have hch2 : (getN (removeFromParent F1v node q) P).children =
                if P = q then ((getN F1v P).children).erase node
                else (getN F1v P).children := by
              rw [remove_children]
              by_cases hPq : P = q
              · rw [if_pos ⟨hPq, hqlt1⟩, if_pos hPq, hPq]
              · rw [if_neg (fun hx => hPq hx.1), if_neg hPq]
            have hS2mem : r.startNode ∈ (getN (removeFromParent F1v node q) P).children := by
              rw [hch2]
              split_ifs with hPq
              · exact (List.mem_erase_of_ne hsn).mpr hS1mem
              · exact hS1mem
            have horder2 : ((getN (removeFromParent F1v node q) P).children).indexOf
                  r.startNode <
                ((getN (removeFromParent F1v node q) P).children).indexOf (F.length) := by
              rw [hch2]
              split_ifs with hPq
              · exact idxOf_erase_lt _ _ _ node hsn (by omega)
                  (by rw [hin1S, hin1L]; omega) hL1mem
              · rw [hin1S, hin1L]
                omega
            cases hpre : preInsert (removeFromParent F1v node q) node P
                (some (F.length)) with
            | error e => rw [hpre] at h; cases h
            | ok v =>
              rw [hpre] at h
              unfold preInsert at hpre
              cases hens2 : ensurePreInsertionValidity (removeFromParent F1v node q)
                  node P (some (F.length)) with
              | some e => rw [hens2] at hpre; cases hpre
              | none =>
                rw [hens2] at hpre
                simp only [] at hpre
                rw [if_neg hrefne] at hpre
                simp only [Except.ok.injEq] at hpre
                subst hpre
                simp only [Except.ok.injEq, Prod.mk.injEq] at h
                obtain ⟨hF3, hr2⟩ := h
                subst hF3
                subst hr2
                obtain ⟨-, hanc2, hPn, -, -⟩ :=
                  ensure_none_facts (removeFromParent F1v node q) node P
                    (some (F.length)) hens2
                have hlen2 : (removeFromParent F1v node q).length = F.length + 1 := by
                  rw [length_removeFromParent, hlen1]
                have hoc2 : onChain (removeFromParent F1v node q) node
                    (F.length - 1) P = false :=
                  not_ancestor_not_onChain _ node P (F.length - 1)
                    (by rw [hlen2]; omega) hanc2
                have hoc1 : onChain F1v node (F.length - 1) P = false := by
                  rw [onChain_congr_target F1v (removeFromParent F1v node q) node
                    (fun j hj => remove_parent_ne F1v node q j hj) (F.length - 1) P]
                    at hoc2
                  exact hoc2
                have hrr2 : reachesRoot (removeFromParent F1v node q)
                    (F.length - 1) P = true := by
                  apply reachesRoot_congr F1v _ [node] ?_ (F.length - 1) P ?_ hrr1
                  · intro j hj
                    exact remove_parent_ne F1v node q j (by simpa using hj)
                  · intro y hy
                    rw [List.mem_singleton] at hy
                    subst hy
                    exact hoc1
                have hfr2 : ¬ (getN (removeFromParent F1v node q) node).kind =
                    .documentFragment := by
                  rw [remove_kind, hkind1 node (by omega)]
                  exact hfrn
                have hdet2 : (getN (removeFromParent F1v node q) node).parent = none := by
                  rw [remove_parent, if_pos ⟨rfl, by rw [hlen1]; omega⟩]
                have hrr3 : reachesRoot (insertIntoParent (removeFromParent F1v node q)
                    node P (some (F.length))) (F.length - 1) P = true := by
                  apply reachesRoot_congr _ _ [node] ?_ (F.length - 1) P ?_ hrr2
                  · intro j hj
                    rw [insertNF_parent _ node P _ j hfr2 hdet2,
                      if_neg (fun hx => (by simpa using hj : ¬ j = node) hx.1)]
                  · intro y hy
                    rw [List.mem_singleton] at hy
                    subst hy
                    exact hoc2
                have hpar3 : (getN (insertIntoParent (removeFromParent F1v node q)
                    node P (some (F.length))) r.startNode).parent = some P := by
                  rw [insertNF_parent _ node P _ r.startNode hfr2 hdet2,
                    if_neg (fun hx => hsn hx.1)]
                  rw [remove_parent_ne F1v node q r.startNode hsn]
                  rw [hpar1 r.startNode (by omega)]
                  exact hP
                apply orderOK_mk_child _ _ P _ (F.length - 1) hpar3 hrr3 ?_ ?_
                · rw [length_insertNF _ _ _ _ hfr2 hdet2, hlen2]
                  omega
                · rw [idx_eq _ r.startNode P hpar3]
                  rw [insertNF_children _ node P _ P hfr2 hdet2
                    (by rw [hlen2]; omega), if_pos rfl]
                  rw [idxOf_insertBefore_lt _ _ _ _ hS2mem horder2]
                  omega
  · simp only [htext, if_false] at h
    cases hc0 : childAt F r.startNode r.startOffset with
    | none =>
      rw [hc0] at h
      simp only [] at h
      cases hens : ensurePreInsertionValidity F node r.startNode none with
      | some e => rw [hens] at h; cases h
      | none =>
        rw [hens] at h
        simp only [reduceCtorEq, if_false] at h
        obtain ⟨hcont, -, -, -, -⟩ := ensure_none_facts F node r.startNode none hens
        cases hq : (getN F node).parent with
        | none =>
          rw [hq] at h
          simp only [] at h
          cases hpre : preInsert F node r.startNode none with
          | error e => rw [hpre] at h; cases h
          | ok v =>
            rw [hpre] at h
            simp only [Except.ok.injEq, Prod.mk.injEq] at h
            obtain ⟨hF3, hr2⟩ := h
            subst hF3
            subst hr2
            apply orderOK_mk_same
            split <;> omega
        | some q =>
          rw [hq] at h
          have hfragn : ¬ (getN F node).kind = .documentFragment := by
            intro hf
            rw [hWF.fragmentRoot node hnode hf] at hq
            cases hq
          rw [remove_kind, if_neg hfragn] at h
          cases hpre : preInsert (removeFromParent F node q) node r.startNode none with
          | error e => rw [hpre] at h; cases h
          | ok v =>
            rw [hpre] at h
            simp only [Except.ok.injEq, Prod.mk.injEq] at h
            obtain ⟨hF3, hr2⟩ := h
            subst hF3
            subst hr2
            apply orderOK_mk_same
            have hnl : nodeLength F r.startNode =
                ((getN F r.startNode).children).length :=
              nodeLength_container F r.startNode hcont
            have hnl2 : nodeLength (removeFromParent F node q) r.startNode =
                ((getN (removeFromParent F node q) r.startNode).children).length := by
              apply nodeLength_container
              rw [remove_kind]
              exact hcont
            have hlen2 : ((getN (removeFromParent F node q) r.startNode).children).length
                + 1 ≥ ((getN F r.startNode).children).length := by
              rw [remove_children]
              split_ifs with hsk
              · rw [← hsk.1, List.length_erase]
                split_ifs <;> omega
              · omega
            omega
    | some c =>
      rw [hc0] at h
      simp only [] at h
      have hc0' : ((getN F r.startNode).children).get? r.startOffset = some c := hc0
      have hcmem : c ∈ (getN F r.startNode).children := List.get?_mem hc0'
      have hparc := (hWF.childParent r.startNode hS c hcmem).2
      have hclt := (hWF.childParent r.startNode hS c hcmem).1
      have hidxc : ((getN F r.startNode).children).indexOf c = r.startOffset :=
        idxOf_get? _ _ _ (hWF.childNodup r.startNode hS) hc0'
      cases hcp : (getN F c).parent with
      | none => rw [hcp] at h; cases h
      | some p =>
        rw [hcp] at h
        simp only [] at h
        rw [hparc] at hcp
        injection hcp with hh
        subst hh
        cases hens : ensurePreInsertionValidity F node r.startNode (some c) with
        | some e => rw [hens] at h; cases h
        | none =>
          rw [hens] at h
          simp only [] at h
          obtain ⟨hcont, -, -, -, -⟩ := ensure_none_facts F node r.startNode (some c) hens
          by_cases hcn : c = node
          · subst hcn
            rw [if_pos rfl] at h
            rw [hparc] at h
            rw [nextSibling_eq F c r.startNode hparc] at h
            rw [idx_eq F c r.startNode hparc, hidxc] at h
            have hfragn : ¬ (getN F c).kind = .documentFragment := by
              intro hf
              rw [hWF.fragmentRoot c hclt hf] at hparc
              cases hparc
            rw [remove_kind, if_neg hfragn] at h
            cases hns : ((getN F r.startNode).children).get? (r.startOffset + 1) with
            | none =>
              rw [hns] at h
              simp only [] at h
              cases hpre : preInsert (removeFromParent F c r.startNode) c
                  r.startNode none with
              | error e => rw [hpre] at h; cases h
              | ok v =>
                rw [hpre] at h
                simp only [Except.ok.injEq, Prod.mk.injEq] at h
                obtain ⟨hF3, hr2⟩ := h
                subst hF3
                subst hr2
                apply orderOK_mk_same
                have hnl2 : nodeLength (removeFromParent F c r.startNode) r.startNode =
                    ((getN (removeFromParent F c r.startNode) r.startNode).children).length := by
                  apply nodeLength_container
                  rw [remove_kind]
                  exact hcont
                obtain ⟨hlt, -⟩ := List.get?_eq_some.mp hc0'
                have hge : ((getN F r.startNode).children).length ≤ r.startOffset + 1 :=
                  List.get?_eq_none.mp hns
                have hch : (getN (removeFromParent F c r.startNode) r.startNode).children =
                    ((getN F r.startNode).children).erase c := by
                  rw [remove_children, if_pos ⟨rfl, hS⟩]
                rw [hch] at hnl2
                rw [List.length_erase, if_pos hcmem] at hnl2
                omega
            | some c2 =>
              rw [hns] at h
              simp only [] at h
              have hc2mem : c2 ∈ (getN F r.startNode).children := List.get?_mem hns
              have hparc2 := (hWF.childParent r.startNode hS c2 hc2mem).2
              have hidxc2 : ((getN F r.startNode).children).indexOf c2 =
                  r.startOffset + 1 :=
                idxOf_get? _ _ _ (hWF.childNodup r.startNode hS) hns
              have hc2c : c2 ≠ c := by
                intro he
                rw [he, hidxc] at hidxc2
                omega
              have hparc2r : (getN (removeFromParent F c r.startNode) c2).parent =
                  some r.startNode := by
                rw [remove_parent_ne F c r.startNode c2 hc2c]
                exact hparc2
              rw [idx_eq _ c2 r.startNode hparc2r] at h
              have hch : (getN (removeFromParent F c r.startNode) r.startNode).children =
                  ((getN F r.startNode).children).erase c := by
                rw [remove_children, if_pos ⟨rfl, hS⟩]
              rw [hch] at h
              have hle := idxOf_le_erase ((getN F r.startNode).children) c2 c hc2c
              cases hpre : preInsert (removeFromParent F c r.startNode) c
                  r.startNode (some c2) with
              | error e => rw [hpre] at h; cases h
              | ok v =>
                rw [hpre] at h
                simp only [Except.ok.injEq, Prod.mk.injEq] at h
                obtain ⟨hF3, hr2⟩ := h
                subst hF3
                subst hr2
                apply orderOK_mk_same
                omega
          · rw [if_neg (show ¬ (some c = some node) from
              fun hx => hcn (Option.some_injective Nat hx))] at h
            cases hq : (getN F node).parent with
            | none =>
              rw [hq] at h
              simp only [] at h
              rw [idx_eq F c r.startNode hparc, hidxc] at h
              cases hpre : preInsert F node r.startNode (some c) with
              | error e => rw [hpre] at h; cases h
              | ok v =>
                rw [hpre] at h
                simp only [Except.ok.injEq, Prod.mk.injEq] at h
                obtain ⟨hF3, hr2⟩ := h
                subst hF3
                subst hr2
                apply orderOK_mk_same
                split <;> omega
            | some q =>
              rw [hq] at h
              simp only [] at h
              have hfragn : ¬ (getN F node).kind = .documentFragment := by
                intro hf
                rw [hWF.fragmentRoot node hnode hf] at hq
                cases hq
              rw [remove_kind, if_neg hfragn] at h
              have hparcr : (getN (removeFromParent F node q) c).parent =
                  some r.startNode := by
                rw [remove_parent_ne F node q c (fun he => hcn he)]
                exact hparc
              rw [idx_eq _ c r.startNode hparcr] at h
              have hle2 : ((getN F r.startNode).children).indexOf c ≤
                  ((getN (removeFromParent F node q) r.startNode).children).indexOf c
                  + 1 := by
                rw [remove_children]
                split_ifs with hsk
                · rw [← hsk.1]
                  exact idxOf_le_erase _ c node (fun he => hcn he)
                · omega
              cases hpre : preInsert (removeFromParent F node q) node
                  r.startNode (some c) with
              | error e => rw [hpre] at h; cases h
              | ok v =>
                rw [hpre] at h
                simp only [Except.ok.injEq, Prod.mk.injEq] at h
                obtain ⟨hF3, hr2⟩ := h
                subst hF3
                subst hr2
                apply orderOK_mk_same
                omega

/-- C4: after any public Range Engine mutation that returns normally, the
range's stored boundary points satisfy position(start, end) = Equal or Before,
never After: proved outright for setTheStart, setTheEnd, select and extract
(the latter under the range-order invariant on the input), and for insert on a
collapsed range - the only case in which insert rewrites the stored endpoints;
a successful insert on a non-collapsed range returns the endpoints unchanged
(the re-clamping of stored ranges under structural mutation is the external
Node Mutation Primitives collaborator's contract). -/
theorem claim_C4_mutations_keep_order (F : Forest) (r : LRange) :
    (∀ n k out, setTheStart F r n k = (none, out) → orderOK F out) ∧
    (∀ n k out, setTheEnd F r n k = (none, out) → orderOK F out) ∧
    (∀ n out, select F n r = (none, out) → orderOK F out) ∧
    (∀ fuel F' frag r2, orderOK F r → extract fuel F r = .ok (F', frag, r2) →
      orderOK F' r2) ∧
    (∀ node F' r2, WF F → r.startNode < F.length → node < F.length →
      r.startOffset ≤ nodeLength F r.startNode → collapsedR r = true →
      insertR F node r = .ok (F', r2) → orderOK F' r2) ∧
    (∀ node F' r2, collapsedR r = false → insertR F node r = .ok (F', r2) →
      r2 = r) :=
  ⟨fun n k out h => setStart_ok F r n k out h,
   fun n k out h => setEnd_ok F r n k out h,
   fun n out h => select_ok F n r out h,
   fun fuel F' frag r2 hord h => extract_ok fuel F r F' frag r2 hord h,
   fun node F' r2 hWF hS hnode hk hcol h =>
     insert_collapsed_ok F node r F' r2 hWF hS hnode hk hcol h,
   fun node F' r2 hcol h => insert_frame F node r F' r2 hcol h⟩

theorem claim_C4_witness :
    orderOK c4Forest ⟨1, 1, 1, 2⟩ ∧
    orderOK c4Forest ⟨1, 2, 1, 3⟩ ∧
    orderOK c4Forest ⟨0, 1, 0, 2⟩ ∧
    orderOK (c4Forest ++ [⟨.documentFragment, "", none, []⟩]) c4r ∧
    orderOK c4RootOut ⟨4, 1, 4, 1⟩ ∧
    orderOK c4Fins ⟨1, 2, 0, 2⟩ ∧
    c4rn = c4rn := by
  have h := claim_C4_mutations_keep_order c4Forest c4r
  refine ⟨h.1 1 1 ⟨1, 1, 1, 2⟩ (by rfl),
    h.2.1 1 3 ⟨1, 2, 1, 3⟩ (by rfl),
    h.2.2.1 2 ⟨0, 1, 0, 2⟩ (by rfl),
    h.2.2.2.1 10 (c4Forest ++ [⟨.documentFragment, "", none, []⟩]) 3 c4r
      (Or.inl (by decide)) (by rfl),
    (claim_C4_mutations_keep_order c4RootForest ⟨1, 1, 0, 1⟩).2.2.2.1 10
      c4RootOut 2 ⟨4, 1, 4, 1⟩ (Or.inr (by decide)) (by rfl),
    h.2.2.2.2.1 2 c4Fins ⟨1, 2, 0, 2⟩
      ⟨by decide, by decide, by decide, by decide, by decide⟩
      (by decide) (by decide) (by decide) (by decide) (by rfl),
    (claim_C4_mutations_keep_order c4Forest c4rn).2.2.2.2.2 2 c4Finsn c4rn
      (by rfl) (by rfl)⟩

end LiveDom
